import Mathlib

/-!
# Verification of the spatial field-matching engine of `backend/app/ocr.py`

This file gives a shallow embedding, in Lean 4, of the OCR field-count
extraction pipeline of the repository (module `backend/app/ocr.py`, class
`DataCardOCR`, functions `extract_field_counts`, `_find_item_count`,
`process_image`, together with the schema models of `backend/app/main.py`),
and proves properties of that embedding.

Python strings are modelled as `List Char`, Python floats (OCR confidences
and pixel coordinates, which the program only adds, subtracts and compares)
as exact rationals `ℚ`, Python `int` counts as `ℕ` at the parsing site and
`ℤ` in the public result record, and Python dicts as association lists with
insertion-order semantics (`dictInsert` replaces in place or appends, as
Python `d[k] = v` does).
-/

set_option maxRecDepth 100000

namespace KTB

/-- Python strings are modelled as lists of characters. -/
abbrev Str := List Char

/-- Model of Python `str.lower()` (character-wise lowering). -/
def lower (s : Str) : Str := s.map Char.toLower

/-- Helper for `splitWords`: `cur` is the word currently being read. -/
def splitWordsAux (cur : Str) : Str → List Str
  | [] => if cur = [] then [] else [cur]
  | c :: rest =>
    if c.isWhitespace then
      if cur = [] then splitWordsAux [] rest
      else cur :: splitWordsAux [] rest
    else splitWordsAux (cur ++ [c]) rest

/-- Model of Python `str.split()` with no argument: split on whitespace runs,
dropping empty words. -/
def splitWords (s : Str) : List Str := splitWordsAux [] s

/-- Model of Python `str.find`: index of the first occurrence of `pat` as a
substring (`none` where Python returns `-1`). -/
def strFind (pat : Str) : Str → Option Nat
  | [] => if pat = [] then some 0 else none
  | c :: rest =>
    if pat.isPrefixOf (c :: rest) then some 0
    else (strFind pat rest).map (· + 1)

/-- Model of Python `str.rfind`: index of the last occurrence of `pat` as a
substring (`none` where Python returns `-1`). -/
def strRfind (pat : Str) : Str → Option Nat
  | [] => if pat = [] then some 0 else none
  | c :: rest =>
    match strRfind pat rest with
    | some i => some (i + 1)
    | none => if pat.isPrefixOf (c :: rest) then some 0 else none

/-- Python `str.find` as an integer, `-1` meaning "not found" (the form the
source compares against `-1`-initialised running positions). -/
def findPos (textLower pat : Str) : Int :=
  match strFind pat textLower with
  | some i => (i : Int)
  | none => -1

/-- Python `str.rfind` as an integer, `-1` meaning "not found". -/
def rfindPos (textLower pat : Str) : Int :=
  match strRfind pat textLower with
  | some i => (i : Int)
  | none => -1

/-- Numeric value of a run of decimal digits (Python `int(...)` on the
digit group captured by the regex). -/
def natOfDigits (ds : Str) : Nat := ds.foldl (fun a c => 10 * a + (c.toNat - 48)) 0

/-- Match of the regex `=\s*(\d+)` anchored at the start of `l`: the literal
`=`, optional whitespace, then a maximal nonempty digit run, whose value is
returned. -/
def eqNumHere : Str → Option Nat
  | [] => none
  | c :: rest =>
    if c = '=' then
      let afterWs := rest.dropWhile (fun a => a.isWhitespace)
      let digits := afterWs.takeWhile (fun a => a.isDigit)
      if digits = [] then none else some (natOfDigits digits)
    else none

/-- Model of Python `re.search(r'=\s*(\d+)', text)`: scan left to right for
the first position where the pattern matches; return the match's start
index and the value of the captured digit group. -/
def searchEqNum : Str → Option (Nat × Nat)
  | [] => none
  | c :: rest =>
    match eqNumHere (c :: rest) with
    | some n => some (0, n)
    | none => (searchEqNum rest).map (fun p => (p.1 + 1, p.2))

/-! ## Data model

`Fragment` is one OCR detection as consumed by `extract_field_counts`: a
dict `{'text': ..., 'confidence': ..., 'box': [x_min, y_min, x_max, y_max]}`
(`DataCardOCR.process_image_ocr`). The schema models carry the field names
of `backend/app/main.py`. -/

/-- One OCR text fragment: text, recognition confidence and bounding box. -/
structure Fragment where
  text : Str
  confidence : ℚ
  xMin : ℚ
  yMin : ℚ
  xMax : ℚ
  yMax : ℚ
deriving DecidableEq, Repr

/-- `FieldSchemaInput` of `main.py` (only `name` is consumed by the core). -/
structure FieldSchemaInput where
  name : Str
deriving DecidableEq, Repr

/-- `CategorySchemaInput` of `main.py`: a named ordered list of fields. -/
structure CategorySchemaInput where
  name : Str
  fields : List FieldSchemaInput
deriving DecidableEq, Repr

/-- `FormSchemaOutput` of `main.py`: an ordered list of categories. -/
structure FormSchemaOutput where
  categories : List CategorySchemaInput
deriving DecidableEq, Repr

/-- `OcrFieldResult` of `ocr.py`: raw per-field result before validation. -/
structure OcrFieldResult where
  value : Option ℤ
  confidence : Option ℚ
deriving DecidableEq, Repr

/-- Python dicts with string keys, modelled as insertion-ordered association
lists. -/
abbrev Dict (α : Type) := List (Str × α)

/-- Python `d[k] = v`: replace in place when the key is present, else append. -/
def dictInsert (k : Str) (v : α) : Dict α → Dict α
  | [] => [(k, v)]
  | (k', v') :: rest => if k' = k then (k, v) :: rest else (k', v') :: dictInsert k v rest

/-- Python `d.get(k)` / `d[k]`: first (unique) binding of `k`, if any. -/
def dictFind? (k : Str) : Dict α → Option α
  | [] => none
  | (k', v') :: rest => if k' = k then some v' else dictFind? k rest

/-- In-place update of the value bound to `k` (used for
`category_results[category_name][field_name] = ...`); no-op when `k` is
absent (the source guarantees the key is present). -/
def dictUpdate (k : Str) (f : α → α) : Dict α → Dict α
  | [] => []
  | (k', v') :: rest => if k' = k then (k', f v') :: rest else (k', v') :: dictUpdate k f rest

/-- Key list of a dict, in insertion order. -/
def keysOf (d : Dict α) : List Str := d.map Prod.fst

/-! ## Fuzzy label matcher (`_find_item_count`, lines 239-293) -/

/-- Key words of a schema item name: lower-case words longer than 3
characters, falling back to all words when none qualify
(`_find_item_count` lines 240-246). -/
def keyWordsOf (itemName : Str) : List Str :=
  let itemWords := splitWords (lower itemName)
  let kws := itemWords.filter (fun w => 3 < w.length)
  if kws = [] then itemWords else kws

/-- One key word hits a (lowered) fragment text when it occurs as a
substring, or — for words of length at least 4 — when its 4-character
prefix does (line 260). -/
def wordHit (textLower w : Str) : Bool :=
  (strFind w textLower).isSome || (decide (4 ≤ w.length) && (strFind (w.take 4) textLower).isSome)

/-- Position used by the order-bonus walk: `find(word)`, falling back to
`find(word[:4])` for words of length at least 4; `-1` when absent
(lines 268-271). -/
def posOf (textLower w : Str) : Int :=
  let p := findPos textLower w
  if p < 0 ∧ 4 ≤ w.length then findPos textLower (w.take 4) else p

/-- The order-bonus walk (lines 266-276): walk the key words, and require
every matched word's position to be strictly greater than the last matched
position; unmatched words are skipped. -/
def inOrderFrom (textLower : Str) : List Str → Int → Bool
  | [], _ => true
  | w :: ws, lastPos =>
    let pos := posOf textLower w
    if 0 ≤ pos then
      if pos ≤ lastPos then false else inOrderFrom textLower ws pos
    else inOrderFrom textLower ws lastPos

/-- Match quality of a (lowered) fragment text against the key words:
`match_count / len(key_words)` (0 when there are no key words), plus `0.5`
when the order walk succeeds and the quotient is positive (lines 256-280). -/
def matchQuality (kws : List Str) (textLower : Str) : ℚ :=
  let matchCount := kws.countP (fun w => wordHit textLower w)
  let mq : ℚ := if kws = [] then 0 else (matchCount : ℚ) / (kws.length : ℚ)
  if inOrderFrom textLower kws (-1) = true ∧ 0 < mq then mq + 1/2 else mq

/-- Label-match candidates: fragments whose quality reaches the `0.5`
floor, in list order, paired with their quality (lines 249-284). -/
def itemMatches (kws : List Str) (frags : List Fragment) : List (Fragment × ℚ) :=
  frags.filterMap (fun f =>
    let q := matchQuality kws (lower f.text)
    if 1/2 ≤ q then some (f, q) else none)

/-- `item_matches.sort(key=quality, reverse=True)` followed by
`item_matches[0]` (lines 290-293): Python's sort is stable and
`reverse=True` keeps equal elements in list order, so the selected element
is the first one attaining the maximal quality, which this fold computes
(the state is replaced only on strictly greater quality). -/
def bestMatch? : List (Fragment × ℚ) → Option (Fragment × ℚ)
  | [] => none
  | m :: ms => some (ms.foldl (fun best cur => if best.2 < cur.2 then cur else best) m)

/-! ## Embedded-count check (`_find_item_count`, lines 295-310) -/

/-- Rightmost position, over the key words, of the full word in the lowered
anchor text (`rfind`), starting from `-1` (lines 299-304).  Only full words
are consulted here — not their 4-character prefixes. -/
def lastKeywordPos (textLower : Str) (kws : List Str) : Int :=
  kws.foldl (fun acc w => max acc (rfindPos textLower w)) (-1)

/-- The embedded-count check: search the anchor's own text for `=NUMBER`
and accept it — with the anchor fragment's own confidence — exactly when
the match starts strictly after `lastKeywordPos` (lines 296-310). -/
def embeddedCount (kws : List Str) (anchor : Fragment) : Option (Nat × ℚ) :=
  match searchEqNum anchor.text with
  | none => none
  | some (countPos, count) =>
    if lastKeywordPos (lower anchor.text) kws < (countPos : Int) then some (count, anchor.confidence)
    else none

/-! ## Spatial linker (`_find_item_count`, lines 312-375) -/

/-- Match quality used by the blocking rule (lines 341-352): the fraction
of the other item's key words occurring (as full words only) in the lowered
text of the checked fragment. -/
def blockQuality (otherWords : List Str) (checkTextLower : Str) : ℚ :=
  let mc := otherWords.countP (fun w => (strFind w checkTextLower).isSome)
  if otherWords = [] then 0 else (mc : ℚ) / (otherWords.length : ℚ)

/-- The blocking rule (lines 335-361): a count candidate at `candX` is
blocked when some other schema item achieves at least `0.7` block quality
on some fragment sitting strictly between `label.x_min + 30` and
`candX - 30`, within 15 pixels of the label's `y_min`.  The source's double
loop with early `break`s computes exactly this existential. -/
def blocksCand (itemName : Str) (allItems : List Str) (ocrItems : List Fragment)
    (labelX labelY candX : ℚ) : Prop :=
  ∃ other ∈ allItems, other ≠ itemName ∧
    ∃ check ∈ ocrItems,
      7/10 ≤ blockQuality (keyWordsOf other) (lower check.text) ∧
      labelX + 30 < check.xMin ∧ check.xMin < candX - 30 ∧ |check.yMin - labelY| < 15

instance (itemName : Str) (allItems : List Str) (ocrItems : List Fragment)
    (labelX labelY candX : ℚ) :
    Decidable (blocksCand itemName allItems ocrItems labelX labelY candX) := by
  unfold blocksCand
  infer_instance

/-- One iteration of the spatial scan (lines 317-369).  The running state is
`none` (best distance `inf`) or `some (best_distance, best_count,
best_confidence)`; a candidate with an `=NUMBER` match updates it when it
lies in the window `0 < dx < 400`, `|dy| < 18`, is not blocked, and has
strictly smaller `dx` than the incumbent. -/
def spatialStep (itemName : Str) (allItems : List Str) (ocrItems : List Fragment)
    (anchor : Fragment) (st : Option (ℚ × Nat × ℚ)) (cand : Fragment) :
    Option (ℚ × Nat × ℚ) :=
  match searchEqNum cand.text with
  | none => st
  | some (_, count) =>
    let dx := cand.xMin - anchor.xMin
    let dy := |cand.yMin - anchor.yMin|
    if 0 < dx ∧ dx < 400 ∧ dy < 18 then
      if blocksCand itemName allItems ocrItems anchor.xMin anchor.yMin cand.xMin then st
      else
        match st with
        | none => some (dx, count, cand.confidence)
        | some best => if dx < best.1 then some (dx, count, cand.confidence) else st
    else st

/-- The spatial linker (lines 312-372): scan all fragments with the step
above and return the winning `(count, confidence)` if any candidate
qualified. -/
def spatialLink (itemName : Str) (allItems : List Str) (ocrItems : List Fragment)
    (anchor : Fragment) : Option (Nat × ℚ) :=
  (ocrItems.foldl (spatialStep itemName allItems ocrItems anchor) none).map
    (fun best => (best.2.1, best.2.2))

/-! ## Field resolution (`_find_item_count` and `extract_field_counts`) -/

/-- `_find_item_count` (lines 216-375): fuzzy-match the item name, take the
best label fragment, try the embedded-count check, then the spatial linker;
`(0, 0.0)` when no label matches or when neither path yields a count. -/
def findItemCount (itemName : Str) (ocrItems : List Fragment) (allItems : List Str) :
    Nat × ℚ :=
  let kws := keyWordsOf itemName
  match bestMatch? (itemMatches kws ocrItems) with
  | none => (0, 0)
  | some best =>
    match embeddedCount kws best.1 with
    | some (count, conf) => (count, conf)
    | none =>
      match spatialLink itemName allItems ocrItems best.1 with
      | some (count, conf) => (count, conf)
      | none => (0, 0)

/-- Stable insertion of a fragment after all fragments whose key
`(y_min, x_min)` is lexicographically at most its own. -/
def insertByYX (a : Fragment) : List Fragment → List Fragment
  | [] => [a]
  | b :: bs =>
    if b.yMin < a.yMin ∨ (b.yMin = a.yMin ∧ b.xMin ≤ a.xMin) then b :: insertByYX a bs
    else a :: b :: bs

/-- `sorted(ocr_results, key=lambda x: (x['box'][1], x['box'][0]))`
(line 184): Python's stable sort by `(y_min, x_min)`, modelled as a stable
insertion sort processing the input in order. -/
def sortByYX (l : List Fragment) : List Fragment := l.foldl (fun acc a => insertByYX a acc) []

/-- Lines 202-212 of `extract_field_counts`: a `(count, confidence)` pair is
published as-is when `count > 0 or confidence > 0`, and as the
`(None, None)` record otherwise. -/
def mkFieldResult (r : Nat × ℚ) : OcrFieldResult :=
  if 0 < r.1 ∨ 0 < r.2 then ⟨some (r.1 : ℤ), some r.2⟩ else ⟨none, none⟩

/-- The flat field-name list built by lines 174-181 (append loop over
categories, then fields). -/
def allFieldNames (schema : FormSchemaOutput) : List Str :=
  schema.categories.foldl (fun acc c => acc ++ c.fields.map (fun f => f.name)) []

/-- The `field -> category` lookup dict built by lines 174-181. -/
def fieldToCategory (schema : FormSchemaOutput) : Dict Str :=
  schema.categories.foldl
    (fun d c => c.fields.foldl (fun d' f => dictInsert f.name c.name d') d) []

/-- Lines 186-189: every category name bound to an empty field dict. -/
def initCategoryResults (schema : FormSchemaOutput) : Dict (Dict OcrFieldResult) :=
  schema.categories.foldl (fun d c => dictInsert c.name [] d) []

/-- `extract_field_counts` (lines 156-214): sort the fragments by
`(y_min, x_min)`, then resolve every schema field in declaration order,
storing each result under the field's category. -/
def extract_field_counts (ocrResults : List Fragment) (schema : FormSchemaOutput) :
    Dict (Dict OcrFieldResult) :=
  let allNames := allFieldNames schema
  let f2c := fieldToCategory schema
  let sortedResults := sortByYX ocrResults
  allNames.foldl
    (fun acc fieldName =>
      let r := findItemCount fieldName sortedResults allNames
      let categoryName := (dictFind? fieldName f2c).getD []
      dictUpdate categoryName (dictInsert fieldName (mkFieldResult r)) acc)
    (initCategoryResults schema)

/-- `OcrCategoryResult` of `ocr.py`. -/
structure OcrCategoryResult where
  name : Str
  fields : Dict OcrFieldResult
deriving DecidableEq, Repr

/-- `OcrFormResult` of `ocr.py`. -/
structure OcrFormResult where
  categories : Dict OcrCategoryResult
deriving DecidableEq, Repr

/-- `process_image_to_form_result` (lines 377-410), after the external OCR
stage: wrap each category's field dict in an `OcrCategoryResult`. -/
def process_image_to_form_result (frags : List Fragment) (schema : FormSchemaOutput) :
    OcrFormResult :=
  ⟨(extract_field_counts frags schema).foldl
    (fun acc p => dictInsert p.1 ⟨p.1, p.2⟩ acc) []⟩

/-- `process_image` (lines 429-451).  The base64 decode and the PaddleOCR
engine are external collaborators; their outcome is modelled as an
`Except`-valued input: `.ok frags` when OCR produced a fragment list,
`.error` when any exception was raised inside the `try` block.  The
source's `except Exception` handler returns `OcrFormResult(categories={})`. -/
def process_image (ocrOutcome : Except Str (List Fragment)) (schema : FormSchemaOutput) :
    OcrFormResult :=
  match ocrOutcome with
  | .error _ => ⟨[]⟩
  | .ok frags => process_image_to_form_result frags schema

/-! ## Proof-side definitions -/

/-- The `(field name, category name)` pairs of a category list, in
declaration order (proof-side flattening of the lines 174-181 loop). -/
def pairList (cats : List CategorySchemaInput) : List (Str × Str) :=
  cats.foldl (fun acc c => acc ++ c.fields.map (fun f => (f.name, c.name))) []

/-- The flat field-name list of a category list (the shape of
`allFieldNames`). -/
def flatNames (cats : List CategorySchemaInput) : List Str :=
  cats.foldl (fun acc c => acc ++ c.fields.map (fun f => f.name)) []

/-- `pat` occurs in `l` at index `i`. -/
def occursAt (pat l : Str) (i : Nat) : Prop := pat <+: l.drop i

instance (pat l : Str) (i : Nat) : Decidable (occursAt pat l i) := by
  unfold occursAt
  infer_instance

/-- A qualifying spatial candidate: its text parses an `=NUMBER`, it lies in
the acceptance window (`0 < dx < 400`, `|dy| < 18`), and it is not blocked. -/
def goodCand (itemName : Str) (allItems : List Str) (ocrItems : List Fragment)
    (anchor g : Fragment) : Prop :=
  (∃ p c0, searchEqNum g.text = some (p, c0)) ∧
  0 < g.xMin - anchor.xMin ∧ g.xMin - anchor.xMin < 400 ∧ |g.yMin - anchor.yMin| < 18 ∧
  ¬ blocksCand itemName allItems ocrItems anchor.xMin anchor.yMin g.xMin

/-- A `Bool`-valued strict-increase test on integer lists (used to phrase
the order-bonus condition independently of the source's walk). -/
def strictIncr : List Int → Bool
  | [] => true
  | [_] => true
  | a :: b :: rest => decide (a < b) && strictIncr (b :: rest)

/-! ## Spec-side definitions

The following definitions are written from the words of the specification,
not from the source; they exist to be compared with the source-derived
definitions above. -/

/-- Modelled from the spec (§4.2): the embedded `=NUMBER` of a fragment is
accepted only if the match's start position is strictly after the rightmost
substring occurrence of any key word, or of that key word's 4-character
prefix, within the same fragment text. -/
def specEmbedAccept (kws : List Str) (frag : Fragment) : Prop :=
  ∃ pos count, searchEqNum frag.text = some (pos, count) ∧
    ∀ w ∈ kws, ∀ i : Nat,
      (occursAt w (lower frag.text) i ∨
        (4 ≤ w.length ∧ occursAt (w.take 4) (lower frag.text) i)) →
      (i : Int) < (pos : Int)

/-- Modelled from the spec (§4.1, steps 3-4): `matchQuality = hits /
len(keyWords)`, plus `0.5` when every matched key word's substring position
is strictly increasing in schema word order (with no further proviso). -/
def specMatchQuality (kws : List Str) (textLower : Str) : ℚ :=
  ((kws.countP (fun w => wordHit textLower w) : ℚ) / (kws.length : ℚ)) +
  (if strictIncr (((kws.map (fun w => posOf textLower w)).filter (fun p => decide (0 ≤ p)))) = true
    then 1/2 else 0)

/-- The best (largest) quality among a list of label matches. -/
def specBestQuality (ms : List (Fragment × ℚ)) : ℚ :=
  ms.foldl (fun b m => if b ≤ m.2 then m.2 else b) 0

/-- Modelled from the spec (§7, ambiguous-match): on a tie of best match
quality, the anchor is the first tying fragment in input order. -/
def specAnchorInputOrder (kws : List Str) (frags : List Fragment) : Option Fragment :=
  ((itemMatches kws frags).find?
    (fun m => decide (m.2 = specBestQuality (itemMatches kws frags)))).map (fun m => m.1)

/-! ## Association-list (Python dict) lemmas -/

theorem dictFind?_insert_self (k : Str) (v : α) (d : Dict α) :
    dictFind? k (dictInsert k v d) = some v := by
  induction d with
  | nil => simp [dictInsert, dictFind?]
  | cons p rest ih =>
    by_cases h : p.1 = k
    · simp [dictInsert, dictFind?, h]
    · simp [dictInsert, dictFind?, h, ih]

theorem dictFind?_insert_ne (k k' : Str) (v : α) (d : Dict α) (h : k' ≠ k) :
    dictFind? k (dictInsert k' v d) = dictFind? k d := by
  induction d with
  | nil => simp [dictInsert, dictFind?, h]
  | cons p rest ih =>
    by_cases hp : p.1 = k'
    · simp [dictInsert, dictFind?, hp, h]
    · by_cases hpk : p.1 = k
      · simp [dictInsert, dictFind?, hp, hpk, Ne.symm h]
      · simp [dictInsert, dictFind?, hp, hpk, ih]

theorem dictInsert_eq_append (k : Str) (v : α) (d : Dict α) (h : k ∉ keysOf d) :
    dictInsert k v d = d ++ [(k, v)] := by
  induction d with
  | nil => simp [dictInsert]
  | cons p rest ih =>
    obtain ⟨pk, pv⟩ := p
    simp only [keysOf, List.map_cons, List.mem_cons] at h
    push_neg at h
    have hne : ¬ (pk = k) := Ne.symm h.1
    have h2 : k ∉ keysOf rest := h.2
    simp [dictInsert, hne, ih h2]

theorem keysOf_dictUpdate (k : Str) (f : α → α) (d : Dict α) :
    keysOf (dictUpdate k f d) = keysOf d := by
  induction d with
  | nil => simp [dictUpdate]
  | cons p rest ih =>
    by_cases h : p.1 = k
    · simp [dictUpdate, keysOf, h]
    · simpa [dictUpdate, keysOf, h] using ih

theorem dictFind?_update_self (k : Str) (f : α → α) (d : Dict α) :
    dictFind? k (dictUpdate k f d) = (dictFind? k d).map f := by
  induction d with
  | nil => simp [dictUpdate, dictFind?]
  | cons p rest ih =>
    by_cases h : p.1 = k
    · simp [dictUpdate, dictFind?, h]
    · simp [dictUpdate, dictFind?, h, ih]

theorem dictFind?_update_ne (k k' : Str) (f : α → α) (d : Dict α) (h : k' ≠ k) :
    dictFind? k (dictUpdate k' f d) = dictFind? k d := by
  induction d with
  | nil => simp [dictUpdate, dictFind?]
  | cons p rest ih =>
    by_cases hp : p.1 = k'
    · simp [dictUpdate, dictFind?, hp, h]
    · by_cases hpk : p.1 = k
      · simp [dictUpdate, dictFind?, hp, hpk, Ne.symm h]
      · simp [dictUpdate, dictFind?, hp, hpk, ih]

theorem dictFind?_of_nodup_mem (k : Str) (v : α) (d : Dict α)
    (hnd : (keysOf d).Nodup) (hmem : (k, v) ∈ d) : dictFind? k d = some v := by
  induction d with
  | nil => simp at hmem
  | cons p rest ih =>
    simp only [keysOf, List.map_cons, List.nodup_cons] at hnd
    rcases List.mem_cons.mp hmem with h | h
    · subst h
      simp [dictFind?]
    · have hk : p.1 ≠ k := by
        intro he
        exact hnd.1 (he ▸ (List.mem_map.mpr ⟨(k, v), h, rfl⟩))
      simp [dictFind?, hk, ih (by simpa [keysOf] using hnd.2) h]

/-- Folding fresh, pairwise-distinct bindings into a dict appends them. -/
theorem foldl_dictInsert_keyed (key : β → Str) (val : β → α) :
    ∀ (l : List β) (d : Dict α), (l.map key).Nodup → (∀ b ∈ l, key b ∉ keysOf d) →
      l.foldl (fun acc b => dictInsert (key b) (val b) acc) d =
        d ++ l.map (fun b => (key b, val b)) := by
  intro l
  induction l with
  | nil => simp
  | cons b rest ih =>
    intro d hnd hfresh
    simp only [List.map_cons, List.nodup_cons] at hnd
    have h1 : dictInsert (key b) (val b) d = d ++ [(key b, val b)] :=
      dictInsert_eq_append _ _ _ (hfresh b (by simp))
    have h2 : ∀ q ∈ rest, key q ∉ keysOf (d ++ [(key b, val b)]) := by
      intro q hq
      simp only [keysOf, List.map_append, List.mem_append, List.map_cons, List.map_nil,
        List.mem_cons, List.not_mem_nil, or_false]
      push_neg
      refine ⟨fun hmem => hfresh q (by simp [hq]) hmem, fun he => hnd.1 ?_⟩
      exact he ▸ List.mem_map.mpr ⟨q, hq, rfl⟩
    calc (b :: rest).foldl (fun acc q => dictInsert (key q) (val q) acc) d
        = rest.foldl (fun acc q => dictInsert (key q) (val q) acc) (d ++ [(key b, val b)]) := by
          simp [h1]
      _ = (d ++ [(key b, val b)]) ++ rest.map (fun q => (key q, val q)) := ih _ hnd.2 h2
      _ = d ++ (b :: rest).map (fun q => (key q, val q)) := by simp

/-- Generic: a `foldl` that appends per-element lists, with its accumulator
pulled out front. -/
theorem foldl_append_init (g : β → List γ) :
    ∀ (l : List β) (init : List γ),
      l.foldl (fun acc b => acc ++ g b) init = init ++ l.foldl (fun acc b => acc ++ g b) [] := by
  intro l
  induction l with
  | nil => simp
  | cons b rest ih =>
    intro init
    rw [List.foldl_cons, ih (init ++ g b), List.foldl_cons]
    rw [ih (List.nil ++ g b)]
    simp

/-! ## Characterising the schema-derived tables -/

theorem allFieldNames_eq_flatNames (schema : FormSchemaOutput) :
    allFieldNames schema = flatNames schema.categories := rfl

theorem flatNames_cons (c : CategorySchemaInput) (cats : List CategorySchemaInput) :
    flatNames (c :: cats) = c.fields.map (fun f => f.name) ++ flatNames cats := by
  rw [flatNames, List.foldl_cons, foldl_append_init]
  rfl

theorem flatNames_append (l₁ l₂ : List CategorySchemaInput) :
    flatNames (l₁ ++ l₂) = flatNames l₁ ++ flatNames l₂ := by
  induction l₁ with
  | nil => rfl
  | cons c rest ih => simp [flatNames_cons, ih]

theorem pairList_cons (c : CategorySchemaInput) (cats : List CategorySchemaInput) :
    pairList (c :: cats) = c.fields.map (fun f => (f.name, c.name)) ++ pairList cats := by
  rw [pairList, List.foldl_cons, foldl_append_init]
  rfl

theorem map_fst_pairList (cats : List CategorySchemaInput) :
    (pairList cats).map Prod.fst = flatNames cats := by
  induction cats with
  | nil => rfl
  | cons c rest ih =>
    simp only [pairList_cons, flatNames_cons, List.map_append, ih, List.map_map]
    rfl

theorem mem_flatNames (cats : List CategorySchemaInput) (fn : Str) :
    fn ∈ flatNames cats ↔ ∃ c ∈ cats, ∃ f ∈ c.fields, fn = f.name := by
  induction cats with
  | nil => simp [flatNames]
  | cons c rest ih =>
    simp only [flatNames_cons, List.mem_append, List.mem_map, ih, List.mem_cons]
    constructor
    · rintro (⟨f, hf, rfl⟩ | ⟨c', hc', f, hf, rfl⟩)
      · exact ⟨c, Or.inl rfl, f, hf, rfl⟩
      · exact ⟨c', Or.inr hc', f, hf, rfl⟩
    · rintro ⟨c', hc' | hc', f, hf, rfl⟩
      · exact Or.inl ⟨f, hc' ▸ hf, rfl⟩
      · exact Or.inr ⟨c', hc', f, hf, rfl⟩

theorem mem_pairList (cats : List CategorySchemaInput) (c : CategorySchemaInput)
    (f : FieldSchemaInput) (hc : c ∈ cats) (hf : f ∈ c.fields) :
    (f.name, c.name) ∈ pairList cats := by
  induction cats with
  | nil => simp at hc
  | cons c' rest ih =>
    rw [pairList_cons]
    rcases List.mem_cons.mp hc with h | h
    · subst h
      exact List.mem_append.mpr (Or.inl (List.mem_map.mpr ⟨f, hf, rfl⟩))
    · exact List.mem_append.mpr (Or.inr (ih h))

theorem fieldToCategory_eq_foldl (schema : FormSchemaOutput) :
    fieldToCategory schema =
      (pairList schema.categories).foldl (fun acc p => dictInsert p.1 p.2 acc) [] := by
  rw [fieldToCategory, pairList]
  generalize schema.categories = cats
  have main : ∀ (cats : List CategorySchemaInput) (d : Dict Str),
      cats.foldl (fun d' c => c.fields.foldl (fun d'' f => dictInsert f.name c.name d'') d') d =
      (cats.foldl (fun acc c => acc ++ c.fields.map (fun f => (f.name, c.name))) []).foldl
        (fun acc p => dictInsert p.1 p.2 acc) d := by
    intro cats
    induction cats with
    | nil => intro d; rfl
    | cons c rest ih =>
      intro d
      rw [List.foldl_cons, List.foldl_cons, foldl_append_init, List.foldl_append, ih]
      congr 1
      simp only [List.nil_append]
      rw [List.foldl_map]
  exact main cats []

/-- With globally distinct field names, the `field -> category` dict is
literally the pair list. -/
theorem fieldToCategory_eq (schema : FormSchemaOutput)
    (hfld : (allFieldNames schema).Nodup) :
    fieldToCategory schema = pairList schema.categories := by
  rw [fieldToCategory_eq_foldl]
  have hnd : ((pairList schema.categories).map Prod.fst).Nodup := by
    rw [map_fst_pairList, ← allFieldNames_eq_flatNames]
    exact hfld
  have := foldl_dictInsert_keyed Prod.fst Prod.snd (pairList schema.categories) [] hnd
    (by simp [keysOf])
  simpa using this

/-- With globally distinct field names, a schema field's category lookup
yields its declaring category. -/
theorem fieldToCategory_find (schema : FormSchemaOutput)
    (hfld : (allFieldNames schema).Nodup) (c : CategorySchemaInput)
    (f : FieldSchemaInput) (hc : c ∈ schema.categories) (hf : f ∈ c.fields) :
    dictFind? f.name (fieldToCategory schema) = some c.name := by
  rw [fieldToCategory_eq schema hfld]
  refine dictFind?_of_nodup_mem _ _ _ ?_ (mem_pairList _ _ _ hc hf)
  show ((pairList schema.categories).map Prod.fst).Nodup
  rw [map_fst_pairList, ← allFieldNames_eq_flatNames]
  exact hfld

/-- With distinct category names, the initial category table binds every
category name, in order, to the empty dict. -/
theorem initCategoryResults_eq (schema : FormSchemaOutput)
    (hcat : (schema.categories.map (fun c => c.name)).Nodup) :
    initCategoryResults schema =
      schema.categories.map (fun c => (c.name, ([] : Dict OcrFieldResult))) := by
  rw [initCategoryResults]
  have := foldl_dictInsert_keyed (fun c : CategorySchemaInput => c.name)
    (fun _ => ([] : Dict OcrFieldResult)) schema.categories [] (by exact hcat)
    (by simp [keysOf])
  simpa using this

theorem initCategoryResults_find (schema : FormSchemaOutput)
    (hcat : (schema.categories.map (fun c => c.name)).Nodup)
    (c : CategorySchemaInput) (hc : c ∈ schema.categories) :
    dictFind? c.name (initCategoryResults schema) = some [] := by
  rw [initCategoryResults_eq schema hcat]
  refine dictFind?_of_nodup_mem _ _ _ ?_ (List.mem_map.mpr ⟨c, hc, rfl⟩)
  show ((schema.categories.map (fun c => (c.name, ([] : Dict OcrFieldResult)))).map
    Prod.fst).Nodup
  rw [List.map_map]
  exact hcat

/-! ## The resolution fold of `extract_field_counts` -/

/-- Generic shape of the per-field loop (lines 192-212): each field name is
routed to its category's inner dict.  Looking up a key after the fold
filters the field list down to the fields routed to that key and replays
their insertions on the inner dict. -/
theorem dictFind?_foldl_resolve (catOf : Str → Str) (res : Str → α) :
    ∀ (fs : List Str) (acc : Dict (Dict α)) (k : Str),
      dictFind? k (fs.foldl
        (fun a fn => dictUpdate (catOf fn) (dictInsert fn (res fn)) a) acc) =
      (dictFind? k acc).map (fun m =>
        (fs.filter (fun fn => decide (catOf fn = k))).foldl
          (fun m' fn => dictInsert fn (res fn) m') m) := by
  intro fs
  induction fs with
  | nil =>
    intro acc k
    cases h : dictFind? k acc <;> simp [h]
  | cons fn rest ih =>
    intro acc k
    rw [List.foldl_cons, ih]
    by_cases h : catOf fn = k
    · rw [h, dictFind?_update_self]
      rw [List.filter_cons_of_pos (by simpa using h)]
      cases dictFind? k acc <;> simp
    · rw [dictFind?_update_ne _ _ _ _ h]
      rw [List.filter_cons_of_neg (by simpa using h)]

theorem keysOf_foldl_resolve (catOf : Str → Str) (res : Str → α) :
    ∀ (fs : List Str) (acc : Dict (Dict α)),
      keysOf (fs.foldl
        (fun a fn => dictUpdate (catOf fn) (dictInsert fn (res fn)) a) acc) = keysOf acc := by
  intro fs
  induction fs with
  | nil => intro acc; rfl
  | cons fn rest ih =>
    intro acc
    rw [List.foldl_cons, ih, keysOf_dictUpdate]

/-- `extract_field_counts` as lookup-into-the-generic-fold. -/
theorem dictFind?_extract (frags : List Fragment) (schema : FormSchemaOutput) (k : Str) :
    dictFind? k (extract_field_counts frags schema) =
    (dictFind? k (initCategoryResults schema)).map (fun m =>
      ((allFieldNames schema).filter
          (fun fn => decide ((dictFind? fn (fieldToCategory schema)).getD [] = k))).foldl
        (fun m' fn =>
          dictInsert fn
            (mkFieldResult (findItemCount fn (sortByYX frags) (allFieldNames schema))) m') m) :=
  dictFind?_foldl_resolve
    (fun fn => (dictFind? fn (fieldToCategory schema)).getD [])
    (fun fn => mkFieldResult (findItemCount fn (sortByYX frags) (allFieldNames schema)))
    (allFieldNames schema) (initCategoryResults schema) k

/-- The keys of the published table are exactly the category names, in
declaration order. -/
theorem keysOf_extract (frags : List Fragment) (schema : FormSchemaOutput)
    (hcat : (schema.categories.map (fun c => c.name)).Nodup) :
    keysOf (extract_field_counts frags schema) = schema.categories.map (fun c => c.name) := by
  have h1 : keysOf (extract_field_counts frags schema) =
      keysOf (initCategoryResults schema) :=
    keysOf_foldl_resolve
      (fun fn => (dictFind? fn (fieldToCategory schema)).getD [])
      (fun fn => mkFieldResult (findItemCount fn (sortByYX frags) (allFieldNames schema)))
      (allFieldNames schema) (initCategoryResults schema)
  rw [h1, initCategoryResults_eq schema hcat, keysOf, List.map_map]
  rfl

/-- With well-formed names, the fields routed to category `c` are exactly
`c`'s declared fields, in declaration order. -/
theorem filter_allFieldNames (schema : FormSchemaOutput)
    (hcat : (schema.categories.map (fun c => c.name)).Nodup)
    (hfld : (allFieldNames schema).Nodup)
    (c : CategorySchemaInput) (hc : c ∈ schema.categories) :
    (allFieldNames schema).filter
      (fun fn => decide ((dictFind? fn (fieldToCategory schema)).getD [] = c.name)) =
    c.fields.map (fun f => f.name) := by
  obtain ⟨l₁, l₂, hsplit⟩ := List.append_of_mem hc
  have hflat : allFieldNames schema =
      flatNames l₁ ++ (c.fields.map (fun f => f.name) ++ flatNames l₂) := by
    rw [allFieldNames_eq_flatNames, hsplit, flatNames_append, flatNames_cons]
  have hname₁ : c.name ∉ l₁.map (fun c' => c'.name) := by
    have := hcat
    rw [hsplit, List.map_append, List.nodup_append] at this
    intro hmem
    exact this.2.2 hmem (by simp)
  have hname₂ : c.name ∉ l₂.map (fun c' => c'.name) := by
    have := hcat
    rw [hsplit, List.map_append, List.nodup_append] at this
    have h2 := this.2.1
    rw [List.map_cons, List.nodup_cons] at h2
    exact h2.1
  have hcatOf : ∀ c' ∈ schema.categories, ∀ f ∈ c'.fields,
      (dictFind? f.name (fieldToCategory schema)).getD [] = c'.name := by
    intro c' hc' f hf
    rw [fieldToCategory_find schema hfld c' f hc' hf]
    rfl
  have hside : ∀ (l : List CategorySchemaInput), (∀ c' ∈ l, c' ∈ schema.categories) →
      (∀ c' ∈ l, c'.name ≠ c.name) →
      (flatNames l).filter
        (fun fn => decide ((dictFind? fn (fieldToCategory schema)).getD [] = c.name)) = [] := by
    intro l hsub hne
    rw [List.filter_eq_nil_iff]
    intro fn hfn
    obtain ⟨c', hc', f, hf, rfl⟩ := (mem_flatNames l fn).mp hfn
    rw [hcatOf c' (hsub c' hc') f hf]
    simpa using hne c' hc'
  rw [hflat, List.filter_append, List.filter_append]
  rw [hside l₁ (fun c' h => by rw [hsplit]; exact List.mem_append.mpr (Or.inl h))
      (fun c' h he => hname₁ (he ▸ List.mem_map.mpr ⟨c', h, rfl⟩))]
  rw [hside l₂ (fun c' h => by rw [hsplit]; simp [h])
      (fun c' h he => hname₂ (he ▸ List.mem_map.mpr ⟨c', h, rfl⟩))]
  rw [List.filter_eq_self.mpr]
  · simp
  · intro fn hfn
    obtain ⟨f, hf, rfl⟩ := List.mem_map.mp hfn
    simp [hcatOf c hc f hf]

/-- The inner dict built for a category is the literal field-name/result
list when the field names are distinct. -/
theorem foldl_insert_inner (names : List Str) (res : Str → α) (hnd : names.Nodup) :
    names.foldl (fun m fn => dictInsert fn (res fn) m) [] =
      names.map (fun fn => (fn, res fn)) := by
  have := foldl_dictInsert_keyed (fun fn : Str => fn) res names [] (by simpa using hnd)
    (by simp [keysOf])
  simpa using this

/-- **Master description of `extract_field_counts`**: with pairwise-distinct
category names and globally distinct field names, the published table binds
each category name to exactly its declared fields, in order, each carrying
`mkFieldResult` of `_find_item_count` on the `(y, x)`-sorted fragments. -/
theorem extract_field_counts_spec (frags : List Fragment) (schema : FormSchemaOutput)
    (hcat : (schema.categories.map (fun c => c.name)).Nodup)
    (hfld : (allFieldNames schema).Nodup)
    (c : CategorySchemaInput) (hc : c ∈ schema.categories) :
    dictFind? c.name (extract_field_counts frags schema) =
      some (c.fields.map (fun f =>
        (f.name,
          mkFieldResult (findItemCount f.name (sortByYX frags) (allFieldNames schema))))) := by
  rw [dictFind?_extract, initCategoryResults_find schema hcat c hc]
  rw [Option.map_some']
  rw [filter_allFieldNames schema hcat hfld c hc]
  have hnd : (c.fields.map (fun f => f.name)).Nodup := by
    obtain ⟨l₁, l₂, hsplit⟩ := List.append_of_mem hc
    have : (c.fields.map (fun f => f.name)).Sublist (allFieldNames schema) := by
      rw [allFieldNames_eq_flatNames, hsplit, flatNames_append, flatNames_cons]
      exact (List.sublist_append_left _ _).trans (List.sublist_append_right _ _)
    exact this.nodup hfld
  rw [foldl_insert_inner _ _ hnd, List.map_map]
  rfl

/-! ## Substring occurrences -/

theorem occursAt_zero (pat l : Str) : occursAt pat l 0 ↔ pat <+: l := by
  simp [occursAt]

theorem occursAt_cons_succ (pat : Str) (c : Char) (l : Str) (i : Nat) :
    occursAt pat (c :: l) (i + 1) ↔ occursAt pat l i := by
  simp [occursAt]

theorem occursAt_lt_length (pat l : Str) (i : Nat) (hp : pat ≠ [])
    (h : occursAt pat l i) : i < l.length := by
  rcases h with ⟨t, ht⟩
  have hlen : pat.length + t.length = l.length - i := by
    have := congrArg List.length ht
    simpa [List.length_drop] using this
  have hpos : 0 < pat.length := List.length_pos.mpr hp
  by_contra hge
  push_neg at hge
  have : l.length - i = 0 := by omega
  omega

theorem strRfind_eq_none_iff (pat l : Str) :
    strRfind pat l = none ↔ ∀ i, ¬ occursAt pat l i := by
  induction l with
  | nil =>
    constructor
    · intro h i hocc
      rcases hocc with ⟨t, ht⟩
      have hpt : pat = [] ∧ t = [] := List.append_eq_nil.mp (by simpa using ht)
      rw [hpt.1] at h
      simp [strRfind] at h
    · intro h
      by_cases hp : pat = []
      · exact absurd ((occursAt_zero pat []).mpr (hp ▸ List.nil_prefix)) (h 0)
      · simp [strRfind, hp]
  | cons c rest ih =>
    constructor
    · intro h i hocc
      rw [strRfind] at h
      rcases hmatch : strRfind pat rest with _ | j
      · rw [hmatch] at h
        by_cases hpre : pat.isPrefixOf (c :: rest)
        · simp [hpre] at h
        · rcases i with _ | i
          · rw [occursAt_zero] at hocc
            exact hpre (List.isPrefixOf_iff_prefix.mpr hocc)
          · rw [occursAt_cons_succ] at hocc
            exact (ih.mp hmatch) i hocc
      · rw [hmatch] at h
        simp at h
    · intro h
      rw [strRfind]
      rcases hmatch : strRfind pat rest with _ | j
      · have hpre : ¬ pat.isPrefixOf (c :: rest) := by
          intro hp
          exact h 0 ((occursAt_zero _ _).mpr (List.isPrefixOf_iff_prefix.mp hp))
        simp [hpre]
      · exfalso
        have : ¬ strRfind pat rest = none := by simp [hmatch]
        rcases not_forall.mp (fun hall => this (ih.mpr hall)) with ⟨i, hi⟩
        exact h (i + 1) ((occursAt_cons_succ _ _ _ _).mpr (not_not.mp hi))

theorem strRfind_eq_some (pat l : Str) (i : Nat) (h : strRfind pat l = some i) :
    occursAt pat l i ∧ ∀ j, occursAt pat l j → j ≤ i ∨ l.length < j := by
  induction l generalizing i with
  | nil =>
    by_cases hp : pat = []
    · subst hp
      simp [strRfind] at h
      subst h
      refine ⟨(occursAt_zero _ _).mpr List.nil_prefix, ?_⟩
      intro j _
      rcases j with _ | j
      · exact Or.inl le_rfl
      · exact Or.inr (by simp)
    · simp [strRfind, hp] at h
  | cons c rest ih =>
    rw [strRfind] at h
    rcases hmatch : strRfind pat rest with _ | j
    · rw [hmatch] at h
      by_cases hpre : pat.isPrefixOf (c :: rest)
      · simp [hpre] at h
        subst h
        refine ⟨(occursAt_zero _ _).mpr (List.isPrefixOf_iff_prefix.mp hpre), ?_⟩
        intro j hocc
        rcases j with _ | j
        · exact Or.inl le_rfl
        · rw [occursAt_cons_succ] at hocc
          exact absurd hocc ((strRfind_eq_none_iff pat rest).mp hmatch j)
      · simp [hpre] at h
    · rw [hmatch] at h
      simp at h
      subst h
      rcases ih j hmatch with ⟨hocc, hmax⟩
      refine ⟨(occursAt_cons_succ _ _ _ _).mpr hocc, ?_⟩
      intro k hk
      rcases k with _ | k
      · exact Or.inl (by omega)
      · rw [occursAt_cons_succ] at hk
        rcases hmax k hk with hle | hgt
        · exact Or.inl (by omega)
        · exact Or.inr (by simp; omega)

/-- The empty word is never produced by the splitter. -/
theorem splitWordsAux_ne_nil (s : Str) : ∀ cur : Str, ([] : Str) ∉ splitWordsAux cur s := by
  induction s with
  | nil =>
    intro cur
    rw [splitWordsAux]
    by_cases hcur : cur = []
    · simp [hcur]
    · simp only [if_neg hcur, List.mem_singleton]
      exact fun h => hcur h.symm
  | cons c rest ih =>
    intro cur
    rw [splitWordsAux]
    by_cases hws : c.isWhitespace
    · rw [if_pos hws]
      by_cases hcur : cur = []
      · rw [if_pos hcur]
        exact ih []
      · rw [if_neg hcur]
        intro hmem
        rcases List.mem_cons.mp hmem with h | h
        · exact hcur h.symm
        · exact ih [] h
    · rw [if_neg hws]
      exact ih (cur ++ [c])

theorem splitWords_ne_nil (s : Str) (w : Str) (hw : w ∈ splitWords s) : w ≠ [] := by
  intro h
  subst h
  exact splitWordsAux_ne_nil s [] hw

/-- All key words of an item name are nonempty. -/
theorem keyWordsOf_ne_nil (itemName : Str) (w : Str) (hw : w ∈ keyWordsOf itemName) :
    w ≠ [] := by
  rw [keyWordsOf] at hw
  by_cases h : (splitWords (lower itemName)).filter (fun w => decide (3 < w.length)) = []
  · rw [if_pos h] at hw
    exact splitWords_ne_nil _ w hw
  · rw [if_neg h] at hw
    exact splitWords_ne_nil _ w (List.mem_of_mem_filter hw)

/-! ## Spatial linker invariants -/

theorem spatialStep_not_good (itemName : Str) (allItems : List Str)
    (ocrItems : List Fragment) (anchor : Fragment) (st : Option (ℚ × Nat × ℚ))
    (g : Fragment) (h : ¬ goodCand itemName allItems ocrItems anchor g) :
    spatialStep itemName allItems ocrItems anchor st g = st := by
  rw [spatialStep]
  rcases hm : searchEqNum g.text with _ | ⟨p, count⟩
  · rfl
  · simp only []
    by_cases hw : 0 < g.xMin - anchor.xMin ∧ g.xMin - anchor.xMin < 400 ∧
        |g.yMin - anchor.yMin| < 18
    · rw [if_pos hw]
      have hb : blocksCand itemName allItems ocrItems anchor.xMin anchor.yMin g.xMin := by
        by_contra hnb
        exact h ⟨⟨p, count, hm⟩, hw.1, hw.2.1, hw.2.2, hnb⟩
      rw [if_pos hb]
    · rw [if_neg hw]

theorem spatialStep_good (itemName : Str) (allItems : List Str)
    (ocrItems : List Fragment) (anchor : Fragment) (st : Option (ℚ × Nat × ℚ))
    (g : Fragment) (p c0 : Nat) (hm : searchEqNum g.text = some (p, c0))
    (hw1 : 0 < g.xMin - anchor.xMin) (hw2 : g.xMin - anchor.xMin < 400)
    (hw3 : |g.yMin - anchor.yMin| < 18)
    (hnb : ¬ blocksCand itemName allItems ocrItems anchor.xMin anchor.yMin g.xMin) :
    spatialStep itemName allItems ocrItems anchor st g =
      match st with
      | none => some (g.xMin - anchor.xMin, c0, g.confidence)
      | some s => if g.xMin - anchor.xMin < s.1
          then some (g.xMin - anchor.xMin, c0, g.confidence) else st := by
  rw [spatialStep, hm]
  simp only []
  rw [if_pos ⟨hw1, hw2, hw3⟩, if_neg hnb]

/-- Full description of the spatial scan fold: it returns `none` when the
state starts empty and no candidate qualifies, and any returned state is
either the untouched initial state or comes from a qualifying candidate of
minimal `dx`. -/
theorem spatial_foldl_spec (itemName : Str) (allItems : List Str)
    (ocrItems : List Fragment) (anchor : Fragment) :
    ∀ (l : List Fragment) (st : Option (ℚ × Nat × ℚ)),
      ((st = none ∧ ∀ g ∈ l, ¬ goodCand itemName allItems ocrItems anchor g) →
        l.foldl (spatialStep itemName allItems ocrItems anchor) st = none) ∧
      (∀ d c cf, l.foldl (spatialStep itemName allItems ocrItems anchor) st = some (d, c, cf) →
        ((st = some (d, c, cf) ∧ ∀ g ∈ l, goodCand itemName allItems ocrItems anchor g →
            d ≤ g.xMin - anchor.xMin) ∨
         (∃ g ∈ l, goodCand itemName allItems ocrItems anchor g ∧
            d = g.xMin - anchor.xMin ∧ (∃ p, searchEqNum g.text = some (p, c)) ∧
            cf = g.confidence ∧
            (∀ g' ∈ l, goodCand itemName allItems ocrItems anchor g' →
              d ≤ g'.xMin - anchor.xMin) ∧
            (∀ s : ℚ × Nat × ℚ, st = some s → d < s.1)))) := by
  intro l
  induction l with
  | nil =>
    intro st
    refine ⟨fun h => by simpa using h.1, ?_⟩
    intro d c cf h
    simp at h
    exact Or.inl ⟨h, by simp⟩
  | cons g l ih =>
    intro st
    by_cases hg : goodCand itemName allItems ocrItems anchor g
    · obtain ⟨⟨p, c0, hm⟩, hw1, hw2, hw3, hnb⟩ := hg
      have hstep := spatialStep_good itemName allItems ocrItems anchor st g p c0 hm
        hw1 hw2 hw3 hnb
      constructor
      · rintro ⟨hst, hall⟩
        exact absurd ⟨⟨p, c0, hm⟩, hw1, hw2, hw3, hnb⟩ (hall g (by simp))
      · intro d c cf hr
        rw [List.foldl_cons, hstep] at hr
        rcases hst : st with _ | s₀
        · rw [hst] at hr
          simp only [] at hr
          rcases (ih _).2 d c cf hr with ⟨hA1, hA2⟩ | ⟨g'', hg''mem, hgood'', hd'', hc'', hcf'', hmin'', hlt''⟩
          · -- the result is g's own record
            obtain ⟨rfl, rfl, rfl⟩ :
                g.xMin - anchor.xMin = d ∧ c0 = c ∧ g.confidence = cf := by
              simpa using hA1
            refine Or.inr ⟨g, by simp, ⟨⟨p, c0, hm⟩, hw1, hw2, hw3, hnb⟩, rfl, ⟨p, hm⟩, rfl,
              ?_, by simp [hst]⟩
            intro g' hg' hgood'
            rcases List.mem_cons.mp hg' with h | h
            · subst h
              exact le_rfl
            · exact hA2 g' h hgood'
          · -- the result comes from deeper in the list
            have hdlt : d < g.xMin - anchor.xMin := hlt'' _ rfl
            refine Or.inr ⟨g'', by simp [hg''mem], hgood'', hd'', hc'', hcf'', ?_, by simp [hst]⟩
            intro g' hg' hgood'
            rcases List.mem_cons.mp hg' with h | h
            · subst h
              exact le_of_lt hdlt
            · exact hmin'' g' h hgood'
        · rw [hst] at hr
          simp only [] at hr
          by_cases hcmp : g.xMin - anchor.xMin < s₀.1
          · rw [if_pos hcmp] at hr
            rcases (ih _).2 d c cf hr with ⟨hA1, hA2⟩ | ⟨g'', hg''mem, hgood'', hd'', hc'', hcf'', hmin'', hlt''⟩
            · obtain ⟨rfl, rfl, rfl⟩ :
                  g.xMin - anchor.xMin = d ∧ c0 = c ∧ g.confidence = cf := by
                simpa using hA1
              refine Or.inr ⟨g, by simp, ⟨⟨p, c0, hm⟩, hw1, hw2, hw3, hnb⟩, rfl, ⟨p, hm⟩, rfl,
                ?_, ?_⟩
              · intro g' hg' hgood'
                rcases List.mem_cons.mp hg' with h | h
                · subst h
                  exact le_rfl
                · exact hA2 g' h hgood'
              · intro s hs
                have hss : s₀ = s := by simpa using hs
                rw [← hss]
                exact hcmp
            · have hdlt : d < g.xMin - anchor.xMin := hlt'' _ rfl
              refine Or.inr ⟨g'', by simp [hg''mem], hgood'', hd'', hc'', hcf'', ?_, ?_⟩
              · intro g' hg' hgood'
                rcases List.mem_cons.mp hg' with h | h
                · subst h
                  exact le_of_lt hdlt
                · exact hmin'' g' h hgood'
              · intro s hs
                have hss : s₀ = s := by simpa using hs
                rw [← hss]
                exact lt_trans hdlt hcmp
          · rw [if_neg hcmp] at hr
            push_neg at hcmp
            rcases (ih _).2 d c cf hr with ⟨hA1, hA2⟩ | ⟨g'', hg''mem, hgood'', hd'', hc'', hcf'', hmin'', hlt''⟩
            · have hds : d = s₀.1 := by
                have h' : s₀ = (d, c, cf) := by simpa using hA1
                rw [h']
              refine Or.inl ⟨hA1, ?_⟩
              intro g' hg' hgood'
              rcases List.mem_cons.mp hg' with h | h
              · subst h
                rw [hds]
                exact hcmp
              · exact hA2 g' h hgood'
            · have hdlt : d < s₀.1 := hlt'' s₀ rfl
              refine Or.inr ⟨g'', by simp [hg''mem], hgood'', hd'', hc'', hcf'', ?_, hlt''⟩
              intro g' hg' hgood'
              rcases List.mem_cons.mp hg' with h | h
              · subst h
                exact le_of_lt (lt_of_lt_of_le hdlt hcmp)
              · exact hmin'' g' h hgood'
    · have hstep := spatialStep_not_good itemName allItems ocrItems anchor st g hg
      constructor
      · rintro ⟨hst, hall⟩
        rw [List.foldl_cons, hstep]
        exact (ih st).1 ⟨hst, fun g' h => hall g' (by simp [h])⟩
      · intro d c cf hr
        rw [List.foldl_cons, hstep] at hr
        rcases (ih st).2 d c cf hr with ⟨hA1, hA2⟩ | ⟨g'', hg''mem, hgood'', hd'', hc'', hcf'', hmin'', hlt''⟩
        · refine Or.inl ⟨hA1, ?_⟩
          intro g' hg' hgood'
          rcases List.mem_cons.mp hg' with h | h
          · exact absurd (h ▸ hgood') hg
          · exact hA2 g' h hgood'
        · refine Or.inr ⟨g'', by simp [hg''mem], hgood'', hd'', hc'', hcf'', ?_, hlt''⟩
          intro g' hg' hgood'
          rcases List.mem_cons.mp hg' with h | h
          · exact absurd (h ▸ hgood') hg
          · exact hmin'' g' h hgood'

/-- C6: if the spatial linker returns `(c, cf)`, then some fragment `g`
realises it: `g` parses `=c`, `cf` is `g`'s own confidence, `g` lies in the
strict window `0 < dx < 400`, `|dy| < 18`, `g` is unblocked, and `g` has
the smallest `dx` among all unblocked in-window candidates.  In particular
a candidate at `dx = 401` (or any `dx ≥ 400`, `dx ≤ 0`, `|dy| ≥ 18`) is
never selected. -/
theorem spatialLink_window_min (itemName : Str) (allItems : List Str)
    (ocrItems : List Fragment) (anchor : Fragment) (c : Nat) (cf : ℚ)
    (h : spatialLink itemName allItems ocrItems anchor = some (c, cf)) :
    ∃ g ∈ ocrItems, (∃ p, searchEqNum g.text = some (p, c)) ∧ cf = g.confidence ∧
      0 < g.xMin - anchor.xMin ∧ g.xMin - anchor.xMin < 400 ∧
      |g.yMin - anchor.yMin| < 18 ∧
      ¬ blocksCand itemName allItems ocrItems anchor.xMin anchor.yMin g.xMin ∧
      ∀ g' ∈ ocrItems, (∃ p' c', searchEqNum g'.text = some (p', c')) →
        0 < g'.xMin - anchor.xMin → g'.xMin - anchor.xMin < 400 →
        |g'.yMin - anchor.yMin| < 18 →
        ¬ blocksCand itemName allItems ocrItems anchor.xMin anchor.yMin g'.xMin →
        g.xMin - anchor.xMin ≤ g'.xMin - anchor.xMin := by
  rw [spatialLink] at h
  rcases hb : ocrItems.foldl (spatialStep itemName allItems ocrItems anchor) none with _ | b
  · rw [hb] at h
    simp at h
  · rw [hb] at h
    simp only [Option.map_some'] at h
    obtain ⟨b1, b2, b3⟩ := b
    have hbc : b2 = c ∧ b3 = cf := by
      have := h
      simp at this
      exact this
    rcases (spatial_foldl_spec itemName allItems ocrItems anchor ocrItems none).2
        b1 b2 b3 hb with ⟨hA1, _⟩ | ⟨g, hgmem, hgood, hd, hc, hcf, hmin, _⟩
    · simp at hA1
    · obtain ⟨hparse, hw1, hw2, hw3, hnb⟩ := hgood
      refine ⟨g, hgmem, ?_, ?_, hw1, hw2, hw3, hnb, ?_⟩
      · rw [← hbc.1]
        exact hc
      · rw [← hbc.2]
        exact hcf
      · intro g' hg' hp' h1' h2' h3' hnb'
        rw [← hd]
        exact hmin g' hg' ⟨hp', h1', h2', h3', hnb'⟩

/-- Witness for C6 at a concrete input: label at the origin, `"=12"` with
confidence `0.85` twenty pixels to its right on the same line. -/
theorem spatialLink_window_min_witness :
    spatialLink "cigarette butts".data ["cigarette butts".data]
      [⟨"Cigarette butts".data, 9/10, 0, 0, 90, 10⟩, ⟨"=12".data, 17/20, 20, 0, 40, 10⟩]
      ⟨"Cigarette butts".data, 9/10, 0, 0, 90, 10⟩ = some (12, 17/20) ∧
    ∃ g ∈ [(⟨"Cigarette butts".data, 9/10, 0, 0, 90, 10⟩ : Fragment),
           ⟨"=12".data, 17/20, 20, 0, 40, 10⟩],
      (∃ p, searchEqNum g.text = some (p, 12)) ∧ (17/20 : ℚ) = g.confidence ∧
      0 < g.xMin - (0 : ℚ) ∧ g.xMin - 0 < 400 ∧ |g.yMin - (0 : ℚ)| < 18 ∧
      ¬ blocksCand "cigarette butts".data ["cigarette butts".data]
        [⟨"Cigarette butts".data, 9/10, 0, 0, 90, 10⟩, ⟨"=12".data, 17/20, 20, 0, 40, 10⟩]
        0 0 g.xMin ∧
      ∀ g' ∈ [(⟨"Cigarette butts".data, 9/10, 0, 0, 90, 10⟩ : Fragment),
              ⟨"=12".data, 17/20, 20, 0, 40, 10⟩],
        (∃ p' c', searchEqNum g'.text = some (p', c')) →
        0 < g'.xMin - (0 : ℚ) → g'.xMin - 0 < 400 → |g'.yMin - (0 : ℚ)| < 18 →
        ¬ blocksCand "cigarette butts".data ["cigarette butts".data]
          [⟨"Cigarette butts".data, 9/10, 0, 0, 90, 10⟩, ⟨"=12".data, 17/20, 20, 0, 40, 10⟩]
          0 0 g'.xMin →
        g.xMin - (0 : ℚ) ≤ g'.xMin - 0 := by
  constructor
  · with_unfolding_all decide
  · exact spatialLink_window_min "cigarette butts".data ["cigarette butts".data]
      [⟨"Cigarette butts".data, 9/10, 0, 0, 90, 10⟩, ⟨"=12".data, 17/20, 20, 0, 40, 10⟩]
      ⟨"Cigarette butts".data, 9/10, 0, 0, 90, 10⟩ 12 (17/20)
      (by with_unfolding_all decide)

/-- C7: a blocked candidate never supplies the result.  First conjunct:
whatever the spatial linker returns comes from an unblocked fragment.
Second conjunct: when every `=NUMBER` candidate inside the acceptance
window is blocked, the linker returns `none`. -/
theorem blocked_never_returned (itemName : Str) (allItems : List Str)
    (ocrItems : List Fragment) (anchor : Fragment) :
    (∀ c cf, spatialLink itemName allItems ocrItems anchor = some (c, cf) →
      ∃ g ∈ ocrItems,
        ¬ blocksCand itemName allItems ocrItems anchor.xMin anchor.yMin g.xMin ∧
        (∃ p, searchEqNum g.text = some (p, c)) ∧ cf = g.confidence) ∧
    ((∀ g ∈ ocrItems, (∃ p c0, searchEqNum g.text = some (p, c0)) →
        0 < g.xMin - anchor.xMin → g.xMin - anchor.xMin < 400 →
        |g.yMin - anchor.yMin| < 18 →
        blocksCand itemName allItems ocrItems anchor.xMin anchor.yMin g.xMin) →
      spatialLink itemName allItems ocrItems anchor = none) := by
  constructor
  · intro c cf h
    rw [spatialLink] at h
    rcases hb : ocrItems.foldl (spatialStep itemName allItems ocrItems anchor) none with _ | b
    · rw [hb] at h
      simp at h
    · rw [hb] at h
      simp only [Option.map_some'] at h
      obtain ⟨b1, b2, b3⟩ := b
      have hbc : b2 = c ∧ b3 = cf := by
        have := h
        simp at this
        exact this
      rcases (spatial_foldl_spec itemName allItems ocrItems anchor ocrItems none).2
          b1 b2 b3 hb with ⟨hA1, _⟩ | ⟨g, hgmem, hgood, _, hc, hcf, _, _⟩
      · simp at hA1
      · exact ⟨g, hgmem, hgood.2.2.2.2, hbc.1 ▸ hc, hbc.2 ▸ hcf⟩
  · intro hall
    rw [spatialLink]
    have : ocrItems.foldl (spatialStep itemName allItems ocrItems anchor) none = none := by
      refine (spatial_foldl_spec itemName allItems ocrItems anchor ocrItems none).1 ⟨rfl, ?_⟩
      rintro g hg ⟨hparse, hw1, hw2, hw3, hnb⟩
      exact hnb (hall g hg hparse hw1 hw2 hw3)
    rw [this]
    rfl

/-- Witness for C7 at the spec's own blocking scenario: label "Paper cups",
candidate "=5" 100px to the right, and a fragment matching field
"Paper straws" sitting between them; the only in-window candidate is
blocked, so the linker returns `none`. -/
theorem blocked_never_returned_witness :
    spatialLink "paper cups".data ["paper cups".data, "paper straws".data]
      [⟨"Paper cups".data, 9/10, 0, 0, 60, 10⟩, ⟨"Paper straws".data, 4/5, 50, 0, 120, 10⟩,
       ⟨"=5".data, 17/20, 100, 0, 120, 10⟩]
      ⟨"Paper cups".data, 9/10, 0, 0, 60, 10⟩ = none :=
  (blocked_never_returned "paper cups".data ["paper cups".data, "paper straws".data]
      [⟨"Paper cups".data, 9/10, 0, 0, 60, 10⟩, ⟨"Paper straws".data, 4/5, 50, 0, 120, 10⟩,
       ⟨"=5".data, 17/20, 100, 0, 120, 10⟩]
      ⟨"Paper cups".data, 9/10, 0, 0, 60, 10⟩).2
    (by
      intro g hg hparse h1 h2 h3
      simp only [List.mem_cons, List.not_mem_nil, or_false] at hg
      rcases hg with rfl | rfl | rfl
      · obtain ⟨p, c0, hp⟩ := hparse
        have hn : searchEqNum
            (Fragment.mk "Paper cups".data (9/10) 0 0 60 10).text = none := by decide
        rw [hn] at hp
        simp at hp
      · obtain ⟨p, c0, hp⟩ := hparse
        have hn : searchEqNum
            (Fragment.mk "Paper straws".data (4/5) 50 0 120 10).text = none := by decide
        rw [hn] at hp
        simp at hp
      · with_unfolding_all decide)

/-! ## Embedded-count acceptance (C5) -/

theorem foldl_max_lt (tl : Str) (B : Int) :
    ∀ (kws : List Str) (a : Int),
      kws.foldl (fun acc w => max acc (rfindPos tl w)) a < B ↔
        a < B ∧ ∀ w ∈ kws, rfindPos tl w < B := by
  intro kws
  induction kws with
  | nil => simp
  | cons w ws ih =>
    intro a
    rw [List.foldl_cons, ih]
    constructor
    · rintro ⟨hm, hall⟩
      rw [max_lt_iff] at hm
      exact ⟨hm.1, fun w' hw' => by
        rcases List.mem_cons.mp hw' with h | h
        · exact h ▸ hm.2
        · exact hall w' h⟩
    · rintro ⟨ha, hall⟩
      exact ⟨max_lt_iff.mpr ⟨ha, hall w (by simp)⟩, fun w' hw' => hall w' (by simp [hw'])⟩

theorem lastKeywordPos_lt (tl : Str) (kws : List Str) (B : Int) :
    lastKeywordPos tl kws < B ↔ -1 < B ∧ ∀ w ∈ kws, rfindPos tl w < B := by
  rw [lastKeywordPos]
  exact foldl_max_lt tl B kws (-1)

theorem rfindPos_lt_iff (tl w : Str) (hw : w ≠ []) (B : Int) (hB : -1 < B) :
    rfindPos tl w < B ↔ ∀ i, occursAt w tl i → (i : Int) < B := by
  rw [rfindPos]
  rcases hr : strRfind w tl with _ | j
  · simp only []
    constructor
    · intro _ i hi
      exact absurd hi ((strRfind_eq_none_iff w tl).mp hr i)
    · intro _
      exact hB
  · simp only []
    obtain ⟨hocc, hmax⟩ := strRfind_eq_some w tl j hr
    constructor
    · intro hj i hi
      rcases hmax i hi with hle | hgt
      · exact lt_of_le_of_lt (by exact_mod_cast hle) hj
      · exact absurd (occursAt_lt_length w tl i hw hi) (by omega)
    · intro hall
      exact hall j hocc

/-- C5 (amended): the embedded-count check accepts — resolving the field to
the parsed number with the anchor's own confidence, without consulting the
spatial linker — exactly when the `=NUMBER` match starts strictly after
every occurrence of a **full** key word in the anchor's lowered text (the
source consults `rfind` of the full word only; 4-character prefixes play no
role here). -/
theorem embedded_accept_iff_after_full_words (itemName : Str) (frags : List Fragment)
    (allItems : List Str) (a : Fragment) (q : ℚ) (pos n : Nat)
    (h1 : bestMatch? (itemMatches (keyWordsOf itemName) frags) = some (a, q))
    (h2 : searchEqNum a.text = some (pos, n)) :
    (embeddedCount (keyWordsOf itemName) a = some (n, a.confidence) ↔
      ∀ w ∈ keyWordsOf itemName, ∀ i, occursAt w (lower a.text) i →
        (i : Int) < (pos : Int)) ∧
    ((∀ w ∈ keyWordsOf itemName, ∀ i, occursAt w (lower a.text) i →
        (i : Int) < (pos : Int)) →
      findItemCount itemName frags allItems = (n, a.confidence)) := by
  have hiff : embeddedCount (keyWordsOf itemName) a = some (n, a.confidence) ↔
      ∀ w ∈ keyWordsOf itemName, ∀ i, occursAt w (lower a.text) i →
        (i : Int) < (pos : Int) := by
    rw [embeddedCount, h2]
    simp only []
    have hcond : lastKeywordPos (lower a.text) (keyWordsOf itemName) < (pos : Int) ↔
        ∀ w ∈ keyWordsOf itemName, ∀ i, occursAt w (lower a.text) i →
          (i : Int) < (pos : Int) := by
      rw [lastKeywordPos_lt]
      constructor
      · rintro ⟨_, hall⟩ w hw i hi
        exact (rfindPos_lt_iff (lower a.text) w (keyWordsOf_ne_nil itemName w hw)
          (pos : Int) (by omega)).mp (hall w hw) i hi
      · intro hall
        refine ⟨by omega, fun w hw => ?_⟩
        exact (rfindPos_lt_iff (lower a.text) w (keyWordsOf_ne_nil itemName w hw)
          (pos : Int) (by omega)).mpr (hall w hw)
    constructor
    · intro hacc
      by_cases hc : lastKeywordPos (lower a.text) (keyWordsOf itemName) < (pos : Int)
      · exact hcond.mp hc
      · rw [if_neg hc] at hacc
        simp at hacc
    · intro hall
      rw [if_pos (hcond.mpr hall)]
  refine ⟨hiff, fun hall => ?_⟩
  have hemb := hiff.mpr hall
  rw [findItemCount, h1]
  simp only []
  rw [hemb]

/-- Witness for the amended C5 at the spec's own scenario: a single
fragment `"Plastic bottles =8"` with confidence `0.92` resolves the field
`"Plastic bottles"` to `(8, 0.92)` through the embedded path. -/
theorem embedded_accept_witness :
    findItemCount "Plastic bottles".data
      [⟨"Plastic bottles =8".data, 23/25, 0, 0, 100, 10⟩]
      ["Plastic bottles".data] =
      (8, (⟨"Plastic bottles =8".data, 23/25, 0, 0, 100, 10⟩ : Fragment).confidence) := by
  refine (embedded_accept_iff_after_full_words "Plastic bottles".data
      [⟨"Plastic bottles =8".data, 23/25, 0, 0, 100, 10⟩]
      ["Plastic bottles".data]
      ⟨"Plastic bottles =8".data, 23/25, 0, 0, 100, 10⟩ (3/2) 16 8
      (by with_unfolding_all decide) (by decide)).2 ?_
  intro w hw i hocc
  have hk : keyWordsOf "Plastic bottles".data = ["plastic".data, "bottles".data] := by decide
  rw [hk] at hw
  have hlen : (lower (Fragment.mk "Plastic bottles =8".data (23/25) 0 0 100 10).text).length
      = 18 := by decide
  simp only [List.mem_cons, List.not_mem_nil, or_false] at hw
  rcases hw with rfl | rfl
  · have hb : i < 18 := by
      have := occursAt_lt_length _ _ _ (by decide)  hocc
      omega
    have hdec : ∀ j < 18,
        occursAt "plastic".data
          (lower (Fragment.mk "Plastic bottles =8".data (23/25) 0 0 100 10).text) j →
        (j : Int) < ((16 : Nat) : Int) := by decide
    exact hdec i hb hocc
  · have hb : i < 18 := by
      have := occursAt_lt_length _ _ _ (by decide) hocc
      omega
    have hdec : ∀ j < 18,
        occursAt "bottles".data
          (lower (Fragment.mk "Plastic bottles =8".data (23/25) 0 0 100 10).text) j →
        (j : Int) < ((16 : Nat) : Int) := by decide
    exact hdec i hb hocc

/-- C5 counterexample: for field `"bottles"` and the single fragment
`"=5 bottl"` (a prefix-matched anchor), the code accepts the embedded `=5`
— the full word `"bottles"` never occurs, so `rfind` yields `-1` — and the
field resolves to `(5, 0.9)`; but the spec's acceptance condition is false,
because the 4-character prefix `"bott"` occurs at index 3, after the match
start 0. -/
theorem embedded_accept_counterexample :
    findItemCount "bottles".data [⟨"=5 bottl".data, 9/10, 0, 0, 50, 10⟩]
      ["bottles".data] = (5, 9/10) ∧
    ¬ specEmbedAccept (keyWordsOf "bottles".data)
        ⟨"=5 bottl".data, 9/10, 0, 0, 50, 10⟩ := by
  constructor
  · with_unfolding_all decide
  · rintro ⟨pos, count, hse, hall⟩
    have hpc : ((0 : Nat), (5 : Nat)) = (pos, count) := by
      apply Option.some.inj
      rw [← hse]
      decide
    obtain ⟨rfl, rfl⟩ : 0 = pos ∧ 5 = count := by simpa using hpc
    have h3 := hall "bottles".data (by decide) 3
      (Or.inr ⟨by decide, by decide⟩)
    exact absurd h3 (by decide)

/-! ## Fuzzy matcher structure (C8, C9) -/

theorem wordHit_iff_posOf (tl w : Str) : wordHit tl w = true ↔ 0 ≤ posOf tl w := by
  rcases h1 : strFind w tl with _ | i
  · by_cases h4 : 4 ≤ w.length
    · rcases h2 : strFind (w.take 4) tl with _ | j
      · simp [wordHit, posOf, findPos, h1, h2, h4]
      · simp [wordHit, posOf, findPos, h1, h2, h4]
    · simp [wordHit, posOf, findPos, h1, h4]
  · have hnn : ¬(((i : Int) < 0) ∧ 4 ≤ w.length) := fun h => by omega
    simp [wordHit, posOf, findPos, h1, hnn]

theorem strictIncr_iff_chain : ∀ l : List Int, strictIncr l = true ↔ List.Chain' (· < ·) l := by
  intro l
  match l with
  | [] => simp [strictIncr]
  | [a] => simp [strictIncr]
  | a :: b :: rest =>
    rw [strictIncr, List.chain'_cons, Bool.and_eq_true, decide_eq_true_eq,
      strictIncr_iff_chain (b :: rest)]

theorem inOrderFrom_iff_chain (tl : Str) :
    ∀ (ws : List Str) (lastPos : Int),
      inOrderFrom tl ws lastPos = true ↔
        List.Chain' (· < ·)
          (lastPos :: (ws.map (fun w => posOf tl w)).filter (fun p => decide (0 ≤ p))) := by
  intro ws
  induction ws with
  | nil =>
    intro lastPos
    simp [inOrderFrom]
  | cons w ws ih =>
    intro lastPos
    rw [inOrderFrom]
    simp only [List.map_cons]
    by_cases h0 : 0 ≤ posOf tl w
    · rw [if_pos h0, List.filter_cons_of_pos (by simpa using h0)]
      by_cases hcmp : posOf tl w ≤ lastPos
      · rw [if_pos hcmp]
        constructor
        · intro h
          cases h
        · intro h
          rw [List.chain'_cons] at h
          omega
      · rw [if_neg hcmp, ih (posOf tl w), List.chain'_cons]
        constructor
        · intro h
          exact ⟨by omega, h⟩
        · intro h
          exact h.2
    · rw [if_neg h0, List.filter_cons_of_neg (by simpa using h0), ih lastPos]

theorem chain_neg_one_cons (l : List Int) (hl : ∀ p ∈ l, (0 : Int) ≤ p) :
    List.Chain' (· < ·) ((-1) :: l) ↔ List.Chain' (· < ·) l := by
  cases l with
  | nil => simp
  | cons p rest =>
    rw [List.chain'_cons]
    have : (-1 : Int) < p := by
      have := hl p (by simp)
      omega
    simp [this]

/-- C8 (amended): the fuzzy matcher's quality equals
`hits / len(keyWords)` plus `0.5` exactly when **at least one key word
hits** and the matched key words' positions (full word, or 4-char prefix
when the full word is absent) are strictly increasing in schema word
order; a fragment is kept as a label match iff its quality reaches `0.5`;
and quality always lies in `[0, 1.5]`. -/
theorem matchQuality_formula (itemName : Str) (f : Fragment) (frags : List Fragment)
    (q : ℚ) :
    (matchQuality (keyWordsOf itemName) (lower f.text) =
      (((keyWordsOf itemName).countP (fun w => wordHit (lower f.text) w) : ℚ) /
        ((keyWordsOf itemName).length : ℚ)) +
      (if 0 < (keyWordsOf itemName).countP (fun w => wordHit (lower f.text) w) ∧
          List.Chain' (· < ·)
            (((keyWordsOf itemName).map (fun w => posOf (lower f.text) w)).filter
              (fun p => decide (0 ≤ p)))
        then 1/2 else 0)) ∧
    ((f, q) ∈ itemMatches (keyWordsOf itemName) frags ↔
      f ∈ frags ∧ q = matchQuality (keyWordsOf itemName) (lower f.text) ∧ 1/2 ≤ q) ∧
    0 ≤ matchQuality (keyWordsOf itemName) (lower f.text) ∧
    matchQuality (keyWordsOf itemName) (lower f.text) ≤ 3/2 := by
  have hfilter : ∀ p ∈ (((keyWordsOf itemName).map (fun w => posOf (lower f.text) w)).filter
      (fun p => decide (0 ≤ p))), (0 : Int) ≤ p := by
    intro p hp
    have := List.of_mem_filter hp
    simpa using this
  have hformula : matchQuality (keyWordsOf itemName) (lower f.text) =
      (((keyWordsOf itemName).countP (fun w => wordHit (lower f.text) w) : ℚ) /
        ((keyWordsOf itemName).length : ℚ)) +
      (if 0 < (keyWordsOf itemName).countP (fun w => wordHit (lower f.text) w) ∧
          List.Chain' (· < ·)
            (((keyWordsOf itemName).map (fun w => posOf (lower f.text) w)).filter
              (fun p => decide (0 ≤ p)))
        then 1/2 else 0) := by
    rw [matchQuality]
    by_cases hk : keyWordsOf itemName = []
    · rw [hk]
      simp
    · simp only [if_neg hk]
      have hlen : (0 : ℚ) < ((keyWordsOf itemName).length : ℚ) := by
        have : 0 < (keyWordsOf itemName).length := List.length_pos.mpr hk
        exact_mod_cast this
      have hmq : (0 : ℚ) <
          ((keyWordsOf itemName).countP (fun w => wordHit (lower f.text) w) : ℚ) /
            ((keyWordsOf itemName).length : ℚ) ↔
          0 < (keyWordsOf itemName).countP (fun w => wordHit (lower f.text) w) := by
        rw [lt_div_iff₀ hlen, zero_mul]
        exact_mod_cast Nat.cast_pos
      have hord : inOrderFrom (lower f.text) (keyWordsOf itemName) (-1) = true ↔
          List.Chain' (· < ·)
            (((keyWordsOf itemName).map (fun w => posOf (lower f.text) w)).filter
              (fun p => decide (0 ≤ p))) := by
        rw [inOrderFrom_iff_chain, chain_neg_one_cons _ hfilter]
      by_cases hc : inOrderFrom (lower f.text) (keyWordsOf itemName) (-1) = true ∧
          (0 : ℚ) < ((keyWordsOf itemName).countP (fun w => wordHit (lower f.text) w) : ℚ) /
            ((keyWordsOf itemName).length : ℚ)
      · rw [if_pos hc, if_pos ⟨hmq.mp hc.2, hord.mp hc.1⟩]
      · rw [if_neg hc, if_neg (fun h => hc ⟨hord.mpr h.2, hmq.mpr h.1⟩), add_zero]
  refine ⟨hformula, ?_, ?_, ?_⟩
  · rw [itemMatches, List.mem_filterMap]
    constructor
    · rintro ⟨g, hg, hstep⟩
      by_cases hq : (1 : ℚ)/2 ≤ matchQuality (keyWordsOf itemName) (lower g.text)
      · rw [if_pos hq] at hstep
        obtain ⟨rfl, rfl⟩ : g = f ∧ matchQuality (keyWordsOf itemName) (lower g.text) = q := by
          have := hstep
          simp at this
          exact this
        exact ⟨hg, rfl, hq⟩
      · rw [if_neg hq] at hstep
        simp at hstep
    · rintro ⟨hf, rfl, hq⟩
      exact ⟨f, hf, by rw [if_pos hq]⟩
  · rw [hformula]
    have h1 : (0 : ℚ) ≤
        (((keyWordsOf itemName).countP (fun w => wordHit (lower f.text) w) : ℚ) /
          ((keyWordsOf itemName).length : ℚ)) :=
      div_nonneg (by positivity) (by positivity)
    split <;> [positivity; simpa using h1]
  · rw [hformula]
    have h1 : (((keyWordsOf itemName).countP (fun w => wordHit (lower f.text) w) : ℚ) /
        ((keyWordsOf itemName).length : ℚ)) ≤ 1 := by
      by_cases hk : keyWordsOf itemName = []
      · simp [hk]
      · have hlen : (0 : ℚ) < ((keyWordsOf itemName).length : ℚ) := by
          have : 0 < (keyWordsOf itemName).length := List.length_pos.mpr hk
          exact_mod_cast this
        rw [div_le_one hlen]
        exact_mod_cast List.countP_le_length _
    split
    · linarith
    · linarith

/-- C8 counterexample: for field `"bottles"` and fragment text `"xyz"`, no
key word hits, so the source assigns quality `0`; the claim's formula —
`hits / len` plus `0.5` whenever every matched key word's position is
strictly increasing, a condition vacuously true with zero matches —
assigns `0.5`. -/
theorem matchQuality_spec_counterexample :
    matchQuality (keyWordsOf "bottles".data) (lower "xyz".data) = 0 ∧
    specMatchQuality (keyWordsOf "bottles".data) (lower "xyz".data) = 1/2 ∧
    matchQuality (keyWordsOf "bottles".data) (lower "xyz".data) ≠
      specMatchQuality (keyWordsOf "bottles".data) (lower "xyz".data) := by
  have h0 : matchQuality (keyWordsOf "bottles".data) (lower "xyz".data) = 0 := by
    with_unfolding_all decide
  have hhalf : specMatchQuality (keyWordsOf "bottles".data) (lower "xyz".data) = 1/2 := by
    rw [specMatchQuality]
    have h1 : (keyWordsOf "bottles".data).countP
        (fun w => wordHit (lower "xyz".data) w) = 0 := by decide
    have h2 : (((keyWordsOf "bottles".data).map
        (fun w => posOf (lower "xyz".data) w)).filter (fun p => decide (0 ≤ p))) = [] := by
      decide
    have h3 : (keyWordsOf "bottles".data).length = 1 := by decide
    rw [h1, h2, h3]
    norm_num [strictIncr]
  exact ⟨h0, hhalf, by rw [h0, hhalf]; norm_num⟩

/-- The running-best fold of lines 289-293 selects the first element of
maximal quality: the processed list splits as `l₁ ++ best :: l₂` with all
of `l₁` strictly worse and all of `l₂` no better. -/
theorem foldl_best_split :
    ∀ (ms : List (Fragment × ℚ)) (b : Fragment × ℚ),
      ∃ l₁ l₂,
        b :: ms =
          l₁ ++ (ms.foldl (fun best cur => if best.2 < cur.2 then cur else best) b) :: l₂ ∧
        (∀ x ∈ l₁,
          x.2 < (ms.foldl (fun best cur => if best.2 < cur.2 then cur else best) b).2) ∧
        (∀ x ∈ l₂,
          x.2 ≤ (ms.foldl (fun best cur => if best.2 < cur.2 then cur else best) b).2) := by
  intro ms
  induction ms with
  | nil =>
    intro b
    exact ⟨[], [], by simp, by simp, by simp⟩
  | cons c ms ih =>
    intro b
    rw [List.foldl_cons]
    by_cases hbc : b.2 < c.2
    · simp only [if_pos hbc]
      obtain ⟨l₁, l₂, heq, hl₁, hl₂⟩ := ih c
      refine ⟨b :: l₁, l₂, ?_, ?_, hl₂⟩
      · rw [List.cons_append, ← heq]
      · intro x hx
        rcases List.mem_cons.mp hx with rfl | hx'
        · have hcle : c.2 ≤ (ms.foldl (fun best cur => if best.2 < cur.2 then cur else best) c).2 := by
            have hcmem : c ∈ l₁ ++
                (ms.foldl (fun best cur => if best.2 < cur.2 then cur else best) c) :: l₂ := by
              rw [← heq]
              simp
            rcases List.mem_append.mp hcmem with h | h
            · exact le_of_lt (hl₁ c h)
            · rcases List.mem_cons.mp h with he | h'
              · exact le_of_eq (congrArg Prod.snd he)
              · exact hl₂ c h'
          exact lt_of_lt_of_le hbc hcle
        · exact hl₁ x hx'
    · simp only [if_neg hbc]
      obtain ⟨l₁, l₂, heq, hl₁, hl₂⟩ := ih b
      rcases l₁ with _ | ⟨b', l₁'⟩
      · simp only [List.nil_append] at heq
        have hbr : b = ms.foldl (fun best cur => if best.2 < cur.2 then cur else best) b ∧
            ms = l₂ := by
          have h1 := List.head_eq_of_cons_eq heq
          have h2 := List.tail_eq_of_cons_eq heq
          exact ⟨h1, h2⟩
        refine ⟨[], c :: l₂, ?_, by simp, ?_⟩
        · rw [List.nil_append, ← hbr.1, ← hbr.2]
        · intro x hx
          rcases List.mem_cons.mp hx with rfl | hx'
          · rw [← hbr.1]
            exact not_lt.mp hbc
          · exact hl₂ x hx'
      · rw [List.cons_append] at heq
        have hbb' : b = b' := List.head_eq_of_cons_eq heq
        have hms : ms = l₁' ++
            (ms.foldl (fun best cur => if best.2 < cur.2 then cur else best) b) :: l₂ :=
          List.tail_eq_of_cons_eq heq
        have hblt : b.2 < (ms.foldl (fun best cur => if best.2 < cur.2 then cur else best) b).2 := by
          have hsnd : b.2 = b'.2 := congrArg Prod.snd hbb'
          rw [hsnd]
          exact hl₁ b' (by simp)
        refine ⟨b :: c :: l₁', l₂, ?_, ?_, hl₂⟩
        · rw [List.cons_append, List.cons_append, ← hms]
        · intro x hx
          rcases List.mem_cons.mp hx with rfl | hx'
          · exact hblt
          · rcases List.mem_cons.mp hx' with rfl | hx''
            · exact lt_of_le_of_lt (not_lt.mp hbc) hblt
            · exact hl₁ x (by simp [hx''])

/-- C9 (amended): the anchor selected for a field is the **first** fragment
attaining the maximal match quality in the `(y_min, x_min)`-sorted order
(the pipeline spatially sorts the input before matching, so on a quality
tie the winner is the tying fragment that is first after that stable sort,
not necessarily first in input order); selection is total — never an
error. -/
theorem anchor_first_in_sorted_order (itemName : Str) (frags : List Fragment)
    (m : Fragment × ℚ)
    (h : bestMatch? (itemMatches (keyWordsOf itemName) (sortByYX frags)) = some m) :
    ∃ l₁ l₂, itemMatches (keyWordsOf itemName) (sortByYX frags) = l₁ ++ m :: l₂ ∧
      (∀ x ∈ l₁, x.2 < m.2) ∧ (∀ x ∈ l₂, x.2 ≤ m.2) := by
  rcases hms : itemMatches (keyWordsOf itemName) (sortByYX frags) with _ | ⟨m₀, ms'⟩
  · rw [hms] at h
    simp [bestMatch?] at h
  · rw [hms] at h
    rw [bestMatch?] at h
    have hm : ms'.foldl (fun best cur => if best.2 < cur.2 then cur else best) m₀ = m := by
      simpa using h
    obtain ⟨l₁, l₂, heq, hl₁, hl₂⟩ := foldl_best_split ms' m₀
    rw [hm] at heq hl₁ hl₂
    exact ⟨l₁, l₂, heq, hl₁, hl₂⟩

/-- Witness for the amended C9: two fragments both matching `"bottles"`
with tied quality `1.5`; the fragment at `y = 10` sorts first and wins. -/
theorem anchor_first_in_sorted_order_witness :
    bestMatch? (itemMatches (keyWordsOf "bottles".data)
      (sortByYX [⟨"bottles =3".data, 9/10, 0, 20, 50, 30⟩,
                 ⟨"bottles =7".data, 4/5, 0, 10, 50, 20⟩])) =
      some (⟨"bottles =7".data, 4/5, 0, 10, 50, 20⟩, 3/2) ∧
    ∃ l₁ l₂,
      itemMatches (keyWordsOf "bottles".data)
        (sortByYX [⟨"bottles =3".data, 9/10, 0, 20, 50, 30⟩,
                   ⟨"bottles =7".data, 4/5, 0, 10, 50, 20⟩]) =
        l₁ ++ (⟨"bottles =7".data, 4/5, 0, 10, 50, 20⟩, (3/2 : ℚ)) :: l₂ ∧
      (∀ x ∈ l₁, x.2 < (3/2 : ℚ)) ∧ (∀ x ∈ l₂, x.2 ≤ (3/2 : ℚ)) := by
  constructor
  · with_unfolding_all decide
  · exact anchor_first_in_sorted_order "bottles".data
      [⟨"bottles =3".data, 9/10, 0, 20, 50, 30⟩, ⟨"bottles =7".data, 4/5, 0, 10, 50, 20⟩]
      (⟨"bottles =7".data, 4/5, 0, 10, 50, 20⟩, 3/2)
      (by with_unfolding_all decide)

/-- C9 counterexample: the two fragments tie on best quality, the claim's
input-order rule picks `"bottles =3"` (first in input order, resolving to
`(3, 0.9)` through its embedded count), but the pipeline spatially sorts
first, anchors on `"bottles =7"` (smaller `y_min`), and publishes
`(7, 0.8)`. -/
theorem anchor_input_order_counterexample :
    matchQuality (keyWordsOf "bottles".data) (lower "bottles =3".data) =
      matchQuality (keyWordsOf "bottles".data) (lower "bottles =7".data) ∧
    specAnchorInputOrder (keyWordsOf "bottles".data)
      [⟨"bottles =3".data, 9/10, 0, 20, 50, 30⟩, ⟨"bottles =7".data, 4/5, 0, 10, 50, 20⟩] =
      some ⟨"bottles =3".data, 9/10, 0, 20, 50, 30⟩ ∧
    embeddedCount (keyWordsOf "bottles".data) ⟨"bottles =3".data, 9/10, 0, 20, 50, 30⟩ =
      some (3, 9/10) ∧
    dictFind? "c".data (extract_field_counts
      [⟨"bottles =3".data, 9/10, 0, 20, 50, 30⟩, ⟨"bottles =7".data, 4/5, 0, 10, 50, 20⟩]
      ⟨[⟨"c".data, [⟨"bottles".data⟩]⟩]⟩) =
      some [("bottles".data, ⟨some 7, some (4/5)⟩)] := by
  refine ⟨?_, ?_, ?_, ?_⟩
  · with_unfolding_all decide
  · with_unfolding_all decide
  · with_unfolding_all decide
  · with_unfolding_all decide

/-! ## Published-result lemmas (C1-C4, C10) -/

theorem dictFind?_map_of_nodup (l : List β) (key : β → Str) (val : Str → α)
    (hnd : (l.map key).Nodup) (b : β) (hb : b ∈ l) :
    dictFind? (key b) (l.map (fun x => (key x, val (key x)))) = some (val (key b)) := by
  refine dictFind?_of_nodup_mem _ _ _ ?_ (List.mem_map.mpr ⟨b, hb, rfl⟩)
  show ((l.map (fun x => (key x, val (key x)))).map Prod.fst).Nodup
  rw [List.map_map]
  exact hnd

theorem mem_dictInsert (k : Str) (v : α) (d : Dict α) (e : Str × α)
    (h : e ∈ dictInsert k v d) : e = (k, v) ∨ e ∈ d := by
  induction d with
  | nil => simpa [dictInsert] using h
  | cons p rest ih =>
    rw [dictInsert] at h
    by_cases hp : p.1 = k
    · rw [if_pos hp] at h
      rcases List.mem_cons.mp h with h' | h'
      · exact Or.inl h'
      · exact Or.inr (by simp [h'])
    · rw [if_neg hp] at h
      rcases List.mem_cons.mp h with h' | h'
      · exact Or.inr (by simp [h'])
      · rcases ih h' with h'' | h''
        · exact Or.inl h''
        · exact Or.inr (by simp [h''])

theorem mem_dictUpdate (k : Str) (g : α → α) (d : Dict α) (e : Str × α)
    (h : e ∈ dictUpdate k g d) : e ∈ d ∨ ∃ v, (k, v) ∈ d ∧ e = (k, g v) := by
  induction d with
  | nil => simp [dictUpdate] at h
  | cons p rest ih =>
    rw [dictUpdate] at h
    by_cases hp : p.1 = k
    · rw [if_pos hp] at h
      rcases List.mem_cons.mp h with h' | h'
      · exact Or.inr ⟨p.2, by simp [← hp], hp ▸ h'⟩
      · exact Or.inl (by simp [h'])
    · rw [if_neg hp] at h
      rcases List.mem_cons.mp h with h' | h'
      · exact Or.inl (by simp [h'])
      · rcases ih h' with h'' | ⟨v, hv, he⟩
        · exact Or.inl (by simp [h''])
        · exact Or.inr ⟨v, by simp [hv], he⟩

theorem mem_foldl_dictInsert_keyed (key : β → Str) (val : β → γ) :
    ∀ (l : List β) (d : Dict γ) (e : Str × γ),
      e ∈ l.foldl (fun acc b => dictInsert (key b) (val b) acc) d →
      e ∈ d ∨ ∃ b ∈ l, e = (key b, val b) := by
  intro l
  induction l with
  | nil =>
    intro d e h
    exact Or.inl h
  | cons b rest ih =>
    intro d e h
    rw [List.foldl_cons] at h
    rcases ih _ e h with h' | ⟨b', hb', he⟩
    · rcases mem_dictInsert _ _ _ _ h' with h'' | h''
      · exact Or.inr ⟨b, by simp, h''⟩
      · exact Or.inl h''
    · exact Or.inr ⟨b', by simp [hb'], he⟩

/-- Any per-field invariant of the stored results survives the resolution
fold. -/
theorem resolve_preserves (catOf : Str → Str) (res : Str → α) (P : α → Prop)
    (hres : ∀ fn, P (res fn)) :
    ∀ (fs : List Str) (acc : Dict (Dict α)),
      (∀ pe ∈ acc, ∀ e ∈ pe.2, P e.2) →
      ∀ pe ∈ fs.foldl (fun a fn => dictUpdate (catOf fn) (dictInsert fn (res fn)) a) acc,
        ∀ e ∈ pe.2, P e.2 := by
  intro fs
  induction fs with
  | nil =>
    intro acc hacc
    exact hacc
  | cons fn fs ih =>
    intro acc hacc
    rw [List.foldl_cons]
    refine ih _ ?_
    intro pe hpe e he
    rcases mem_dictUpdate _ _ _ _ hpe with h | ⟨v, hv, rfl⟩
    · exact hacc pe h e he
    · rcases mem_dictInsert _ _ _ _ he with rfl | h'
      · exact hres fn
      · exact hacc (catOf fn, v) hv e h'

theorem findItemCount_nil (itemName : Str) (allItems : List Str) :
    findItemCount itemName [] allItems = (0, 0) := rfl

theorem mkFieldResult_zero : mkFieldResult (0, 0) = ⟨none, none⟩ := by
  rw [mkFieldResult]
  norm_num

theorem mkFieldResult_invariant (r : Nat × ℚ) :
    ((mkFieldResult r).value = none ↔ (mkFieldResult r).confidence = none) ∧
    ∀ v, (mkFieldResult r).value = some v → 0 ≤ v := by
  rw [mkFieldResult]
  split
  · refine ⟨by simp, ?_⟩
    intro v hv
    simp at hv
    rw [← hv]
    exact Int.natCast_nonneg r.1
  · simp

/-- C1 (amended): when a label anchor is found but neither the embedded
check nor the spatial linker yields a count, the internal `_find_item_count`
does return the `(0, 0.0)` sentinel — but `extract_field_counts` collapses
it (its `count > 0 or confidence > 0` guard fails), so the **public** record
for the field is `(None, None)`, not distinct from the no-label-found
outcome. -/
theorem sentinel_collapses_to_none (frags : List Fragment) (schema : FormSchemaOutput)
    (hcat : (schema.categories.map (fun c => c.name)).Nodup)
    (hfld : (allFieldNames schema).Nodup)
    (c : CategorySchemaInput) (hc : c ∈ schema.categories)
    (f : FieldSchemaInput) (hf : f ∈ c.fields)
    (a : Fragment) (q : ℚ)
    (h1 : bestMatch? (itemMatches (keyWordsOf f.name) (sortByYX frags)) = some (a, q))
    (h2 : embeddedCount (keyWordsOf f.name) a = none)
    (h3 : spatialLink f.name (allFieldNames schema) (sortByYX frags) a = none) :
    findItemCount f.name (sortByYX frags) (allFieldNames schema) = (0, 0) ∧
    ∃ m, dictFind? c.name (extract_field_counts frags schema) = some m ∧
      dictFind? f.name m = some ⟨none, none⟩ := by
  have hfind : findItemCount f.name (sortByYX frags) (allFieldNames schema) = (0, 0) := by
    rw [findItemCount, h1]
    simp only []
    rw [h2, h3]
  refine ⟨hfind, ?_⟩
  refine ⟨_, extract_field_counts_spec frags schema hcat hfld c hc, ?_⟩
  have hnd : (c.fields.map (fun f' => f'.name)).Nodup := by
    obtain ⟨l₁, l₂, hsplit⟩ := List.append_of_mem hc
    have hsub : (c.fields.map (fun f' => f'.name)).Sublist (allFieldNames schema) := by
      rw [allFieldNames_eq_flatNames, hsplit, flatNames_append, flatNames_cons]
      exact (List.sublist_append_left _ _).trans (List.sublist_append_right _ _)
    exact hsub.nodup hfld
  have hfound : dictFind? f.name
      (c.fields.map (fun f' => (f'.name,
        mkFieldResult (findItemCount f'.name (sortByYX frags) (allFieldNames schema))))) =
      some (mkFieldResult (findItemCount f.name (sortByYX frags) (allFieldNames schema))) :=
    dictFind?_map_of_nodup c.fields (fun f' => f'.name)
      (fun fn => mkFieldResult (findItemCount fn (sortByYX frags) (allFieldNames schema)))
      hnd f hf
  rw [hfound, hfind, mkFieldResult_zero]

/-- Witness for the amended C1: a lone fragment `"bottles"` (no `=NUMBER`
anywhere) under schema `trash/bottles`. -/
theorem sentinel_collapses_to_none_witness :
    findItemCount "bottles".data
      (sortByYX [⟨"bottles".data, 9/10, 0, 0, 50, 10⟩])
      (allFieldNames ⟨[⟨"trash".data, [⟨"bottles".data⟩]⟩]⟩) = (0, 0) ∧
    ∃ m, dictFind? "trash".data (extract_field_counts
        [⟨"bottles".data, 9/10, 0, 0, 50, 10⟩] ⟨[⟨"trash".data, [⟨"bottles".data⟩]⟩]⟩) =
        some m ∧
      dictFind? "bottles".data m = some ⟨none, none⟩ :=
  sentinel_collapses_to_none [⟨"bottles".data, 9/10, 0, 0, 50, 10⟩]
    ⟨[⟨"trash".data, [⟨"bottles".data⟩]⟩]⟩ (by decide) (by decide)
    ⟨"trash".data, [⟨"bottles".data⟩]⟩ (by decide) ⟨"bottles".data⟩ (by decide)
    ⟨"bottles".data, 9/10, 0, 0, 50, 10⟩ (3/2)
    (by with_unfolding_all decide) (by with_unfolding_all decide)
    (by with_unfolding_all decide)

/-- C1 counterexample: with the lone fragment `"bottles"` the label anchor
is found (quality `1.5`), neither path yields a count, yet the public
output records `(None, None)` — not the claimed `(0, 0.0)`, and therefore
not distinct from the no-label-found outcome. -/
theorem sentinel_counterexample :
    bestMatch? (itemMatches (keyWordsOf "bottles".data)
      (sortByYX [⟨"bottles".data, 9/10, 0, 0, 50, 10⟩])) =
      some (⟨"bottles".data, 9/10, 0, 0, 50, 10⟩, 3/2) ∧
    dictFind? "trash".data (extract_field_counts
      [⟨"bottles".data, 9/10, 0, 0, 50, 10⟩] ⟨[⟨"trash".data, [⟨"bottles".data⟩]⟩]⟩) =
      some [("bottles".data, ⟨none, none⟩)] ∧
    (OcrFieldResult.mk none none) ≠ ⟨some 0, some 0⟩ := by
  refine ⟨?_, ?_, ?_⟩
  · with_unfolding_all decide
  · with_unfolding_all decide
  · simp

/-- C2: with well-formed names (the claim's "that field's declared
category" presupposes a field belongs to a unique category), the published
table has exactly the schema categories as keys, and each category's inner
table has exactly that category's declared field names as keys — no field
missing, none extra, independently of the fragment list. -/
theorem result_shape_exact (frags : List Fragment) (schema : FormSchemaOutput)
    (hcat : (schema.categories.map (fun c => c.name)).Nodup)
    (hfld : (allFieldNames schema).Nodup) :
    keysOf (extract_field_counts frags schema) = schema.categories.map (fun c => c.name) ∧
    ∀ c ∈ schema.categories, ∃ m,
      dictFind? c.name (extract_field_counts frags schema) = some m ∧
      keysOf m = c.fields.map (fun f => f.name) := by
  refine ⟨keysOf_extract frags schema hcat, fun c hc => ?_⟩
  refine ⟨_, extract_field_counts_spec frags schema hcat hfld c hc, ?_⟩
  rw [keysOf, List.map_map]
  rfl

/-- Witness for C2 on a two-category schema and a nonempty fragment list. -/
theorem result_shape_exact_witness :
    keysOf (extract_field_counts [⟨"cans =2".data, 4/5, 0, 0, 50, 10⟩]
        ⟨[⟨"Metal".data, [⟨"cans".data⟩]⟩, ⟨"Plastic".data, [⟨"bags".data⟩]⟩]⟩) =
      (FormSchemaOutput.mk [⟨"Metal".data, [⟨"cans".data⟩]⟩,
        ⟨"Plastic".data, [⟨"bags".data⟩]⟩]).categories.map (fun c => c.name) ∧
    ∀ c ∈ (FormSchemaOutput.mk [⟨"Metal".data, [⟨"cans".data⟩]⟩,
        ⟨"Plastic".data, [⟨"bags".data⟩]⟩]).categories, ∃ m,
      dictFind? c.name (extract_field_counts [⟨"cans =2".data, 4/5, 0, 0, 50, 10⟩]
        ⟨[⟨"Metal".data, [⟨"cans".data⟩]⟩, ⟨"Plastic".data, [⟨"bags".data⟩]⟩]⟩) = some m ∧
      keysOf m = c.fields.map (fun f => f.name) :=
  result_shape_exact [⟨"cans =2".data, 4/5, 0, 0, 50, 10⟩]
    ⟨[⟨"Metal".data, [⟨"cans".data⟩]⟩, ⟨"Plastic".data, [⟨"bags".data⟩]⟩]⟩
    (by decide) (by decide)

/-- C3: on an empty fragment list every schema-declared field resolves to
`(None, None)`. -/
theorem empty_fragments_all_none (schema : FormSchemaOutput)
    (hcat : (schema.categories.map (fun c => c.name)).Nodup)
    (hfld : (allFieldNames schema).Nodup)
    (c : CategorySchemaInput) (hc : c ∈ schema.categories) :
    dictFind? c.name (extract_field_counts [] schema) =
      some (c.fields.map (fun f => (f.name, OcrFieldResult.mk none none))) := by
  rw [extract_field_counts_spec [] schema hcat hfld c hc]
  simp only [show sortByYX ([] : List Fragment) = [] from rfl, findItemCount_nil,
    mkFieldResult_zero]

/-- Witness for C3 at the spec's own scenario: schema `Metal/cans`, empty
fragments. -/
theorem empty_fragments_all_none_witness :
    dictFind? "Metal".data (extract_field_counts []
        ⟨[⟨"Metal".data, [⟨"cans".data⟩]⟩]⟩) =
      some [("cans".data, OcrFieldResult.mk none none)] :=
  empty_fragments_all_none ⟨[⟨"Metal".data, [⟨"cans".data⟩]⟩]⟩ (by decide) (by decide)
    ⟨"Metal".data, [⟨"cans".data⟩]⟩ (by decide)

/-- C4: every field result anywhere in the public output has `value = None`
iff `confidence = None`, and any present value is an integer `≥ 0`. -/
theorem field_result_invariant (frags : List Fragment) (schema : FormSchemaOutput) :
    ∀ p ∈ (process_image_to_form_result frags schema).categories,
      ∀ e ∈ p.2.fields,
        (e.2.value = none ↔ e.2.confidence = none) ∧
        ∀ v, e.2.value = some v → 0 ≤ v := by
  have hextract : ∀ pe ∈ extract_field_counts frags schema, ∀ e ∈ pe.2,
      (e.2.value = none ↔ e.2.confidence = none) ∧
      ∀ v, e.2.value = some v → 0 ≤ v := by
    refine resolve_preserves
      (fun fn => (dictFind? fn (fieldToCategory schema)).getD [])
      (fun fn => mkFieldResult (findItemCount fn (sortByYX frags) (allFieldNames schema)))
      (fun r => (r.value = none ↔ r.confidence = none) ∧ ∀ v, r.value = some v → 0 ≤ v)
      (fun fn => mkFieldResult_invariant _)
      (allFieldNames schema) (initCategoryResults schema) ?_
    intro pe hpe e he
    rcases mem_foldl_dictInsert_keyed (fun c : CategorySchemaInput => c.name)
        (fun _ => ([] : Dict OcrFieldResult)) schema.categories [] pe hpe with h | ⟨b, _, rfl⟩
    · simp at h
    · simp at he
  intro p hp e he
  rcases mem_foldl_dictInsert_keyed (fun q : Str × Dict OcrFieldResult => q.1)
      (fun q => OcrCategoryResult.mk q.1 q.2) (extract_field_counts frags schema) [] p
      hp with h | ⟨q, hq, rfl⟩
  · simp at h
  · exact hextract q hq e he

/-- Witness for C4 at a concrete input: the published result for
`"cans =2"` under schema `Metal/cans` is `(2, 0.8)`, which satisfies the
invariant. -/
theorem field_result_invariant_witness :
    ((OcrFieldResult.mk (some 2) (some (4/5))).value = none ↔
      (OcrFieldResult.mk (some 2) (some (4/5))).confidence = none) ∧
    ∀ v, (OcrFieldResult.mk (some 2) (some (4/5))).value = some v → 0 ≤ v :=
  field_result_invariant [⟨"cans =2".data, 4/5, 0, 0, 50, 10⟩]
    ⟨[⟨"Metal".data, [⟨"cans".data⟩]⟩]⟩
    ("Metal".data, ⟨"Metal".data, [("cans".data, ⟨some 2, some (4/5)⟩)]⟩)
    (by with_unfolding_all decide)
    ("cans".data, ⟨some 2, some (4/5)⟩)
    (by with_unfolding_all decide)

/-- C10: when the external OCR stage fails (any exception inside the `try`
block, modelled as an `Except.error` outcome), `process_image` returns an
`OcrFormResult` with an empty categories mapping: no schema-declared
category or field appears at all, and no exception escapes. -/
theorem ocr_failure_empty_result (err : Str) (schema : FormSchemaOutput) :
    process_image (Except.error err) schema = ⟨[]⟩ ∧
    ∀ k, dictFind? k (process_image (Except.error err) schema).categories = none :=
  ⟨rfl, fun _ => rfl⟩

end KTB
